import Mathlib

/-!
Verification of the streaming ZIP reader: a shallow embedding of the
byte-cursor primitives, the three binary record decoders, the EOCD locator,
the partitioner, the bounded fetcher and the two extraction pipelines
(sequential `readEntireZip` and central-directory-driven `iterateZipFiles2`),
together with proofs of the documented properties.

Byte streams are modelled as `List Nat` (each element one byte); a read
returns the value together with the remaining stream.  Machine integers are
`Nat` with explicit `% 2^w` where overflow matters.  The unbounded pull
loops of the source are modelled with explicit fuel.
-/

namespace ZipStream

/-- The four-byte little-endian signature of a local file record. -/
def SIGNATURE_FILE : Nat := 0x04034b50

/-- The four-byte little-endian signature of a central directory record. -/
def SIGNATURE_CENTRAL_DIRECTORY_START : Nat := 0x02014b50

/-- The four-byte little-endian signature of the end-of-central-directory
record. -/
def SIGNATURE_CENTRAL_DIRECTORY_END : Nat := 0x06054b50

/-- Fixed header size used by the source when computing `lastByteAt`. -/
def FILE_HEADER_SIZE : Nat := 32

/-- Backward-scan chunk size of the EOCD locator (50 KiB).  Marked
irreducible so that definitional unfolding never unary-expands arithmetic
on this literal against symbolic operands. -/
@[irreducible] def CENTRAL_DIRECTORY_END_SCAN_CHUNK_SIZE : Nat := 50 * 1024

/-- Byte of a buffer at an index, `0` out of range (DataView reads in this
development are only performed in range; the default is never observed
there). -/
def byteAt (l : List Nat) (i : Nat) : Nat := l.getD i 0

/-- Little-endian 16-bit read at an offset, as `DataView.getUint16`. -/
def readU16At (l : List Nat) (i : Nat) : Nat :=
  byteAt l i + 256 * byteAt l (i + 1)

/-- Little-endian 32-bit read at an offset, as `DataView.getUint32`. -/
def readU32At (l : List Nat) (i : Nat) : Nat :=
  byteAt l i + 256 * byteAt l (i + 1) + 65536 * byteAt l (i + 2) +
    16777216 * byteAt l (i + 3)

/-- Little-endian 16-bit write: the two bytes of `x % 2^16`. -/
def w16 (x : Nat) : List Nat := [x % 256, x / 256 % 256]

/-- Little-endian 32-bit write: the four bytes of `x % 2^32`. -/
def w32 (x : Nat) : List Nat :=
  [x % 256, x / 256 % 256, x / 65536 % 256, x / 16777216 % 256]

/-- `concatNBytes` from the source: the received chunks are written into a
fresh zero-initialised buffer of `totalBytes` bytes, so a short input comes
back zero-padded to the requested length. -/
def concatNBytes (totalBytes : Nat) (data : List Nat) : List Nat :=
  data.take totalBytes ++ List.replicate (totalBytes - data.length) 0

/-- `readBytes(stream, n)` from the source: `limitBytes` caps the stream at
`n` bytes and `concatNBytes` zero-pads the result to exactly `n` bytes.
Returns the buffer and the remaining stream. -/
def readBytesN (s : List Nat) (n : Nat) : List Nat × List Nat :=
  (concatNBytes n (s.take n), s.drop n)

/-- `readString(stream, n)` from the source: `limitBytes` then text-decode;
no zero padding, a short stream yields a short result.  File names are kept
as their UTF-8 bytes. -/
def readStringB (s : List Nat) (n : Nat) : List Nat × List Nat :=
  (s.take n, s.drop n)

/-- Inclusive byte-range slice, as `source.streamBytes(start, end)`. -/
def sliceBytes (l : List Nat) (a b : Nat) : List Nat :=
  (l.drop a).take (b + 1 - a)

section NumLemmas

theorem w16_length (x : Nat) : (w16 x).length = 2 := rfl

theorem w32_length (x : Nat) : (w32 x).length = 4 := rfl

theorem u16_recomb {x : Nat} (h : x < 65536) :
    x % 256 + 256 * (x / 256 % 256) = x := by
  omega

theorem u32_recomb {x : Nat} (h : x < 4294967296) :
    x % 256 + 256 * (x / 256 % 256) + 65536 * (x / 65536 % 256) +
      16777216 * (x / 16777216 % 256) = x := by
  omega

end NumLemmas

/-- Decoded local file record (`FileEntry` in the source).  `fileName` keeps
the raw UTF-8 bytes; `body` is the decoded (possibly inflated) content. -/
structure FileEntry where
  version : Nat
  generalPurpose : Nat
  compressionMethod : Nat
  lastModifiedTime : Nat
  lastModifiedDate : Nat
  crc : Nat
  compressedSize : Nat
  uncompressedSize : Nat
  fileNameLength : Nat
  fileName : List Nat
  isDirectory : Bool
  extraLength : Nat
  extra : List Nat
  body : List Nat
  deriving DecidableEq

/-- Decoded central directory record. -/
structure CentralDirectoryEntry where
  versionCreated : Nat
  versionNeeded : Nat
  generalPurpose : Nat
  compressionMethod : Nat
  lastModifiedTime : Nat
  lastModifiedDate : Nat
  crc : Nat
  compressedSize : Nat
  uncompressedSize : Nat
  fileNameLength : Nat
  extraLength : Nat
  fileCommentLength : Nat
  diskNumber : Nat
  internalAttributes : Nat
  externalAttributes : Nat
  firstByteAt : Nat
  lastByteAt : Nat
  fileName : List Nat
  extra : List Nat
  fileComment : List Nat
  isDirectory : Bool
  deriving DecidableEq

/-- Decoded end-of-central-directory record. -/
structure CentralDirectoryEndEntry where
  numberOfDisks : Nat
  centralDirectoryStartDisk : Nat
  numberCentralDirectoryRecordsOnThisDisk : Nat
  numberCentralDirectoryRecords : Nat
  centralDirectorySize : Nat
  centralDirectoryOffset : Nat
  commentLength : Nat
  comment : List Nat
  deriving DecidableEq

/-- The tagged union `ZipEntry` of the source. -/
inductive ZipEntry where
  | file : FileEntry → ZipEntry
  | central : CentralDirectoryEntry → ZipEntry
  | dirEnd : CentralDirectoryEndEntry → ZipEntry
  deriving DecidableEq

/-- `fileName.endsWith('/')` on the raw bytes: `'/'` is the single byte 47
in UTF-8, so a decoded string ends with `'/'` exactly when the byte list
ends with 47. -/
def endsWithSlash (name : List Nat) : Bool := name.getLast? == some 47

/-- Body transformation applied by `readFileEntry`: raw-deflate inflation
when the compression method is 8, the identity otherwise.  The inflater
itself (`DecompressionStream`) is kept as a parameter; both extraction
paths apply the same transformation to the same stored bytes. -/
def decodeBody (inflate : List Nat → List Nat) (method : Nat)
    (data : List Nat) : List Nat :=
  if method = 8 then inflate data else data

/-- The body of `readFileEntry` after the signature handling: reads the
26-byte fixed header through a `DataView`, then the name, extra field and
the `compressedSize`-delimited body.  This part of the code cannot fail
(short reads come back zero-padded / truncated). -/
def readFileEntryCore (inflate : List Nat → List Nat) (s1 : List Nat) :
    FileEntry × List Nat :=
  let hdrRead := readBytesN s1 26
  let hdr := hdrRead.1
  let fileNameLength := readU16At hdr 22
  let extraLength := readU16At hdr 24
  let compressedSize := readU32At hdr 14
  let method := readU16At hdr 4
  let nameRead := readStringB hdrRead.2 fileNameLength
  let extraRead := readBytesN nameRead.2 extraLength
  let bodyRaw := extraRead.2.take compressedSize
  ({ version := readU32At hdr 0
     generalPurpose := readU16At hdr 2
     compressionMethod := method
     lastModifiedTime := readU16At hdr 6
     lastModifiedDate := readU16At hdr 8
     crc := readU32At hdr 10
     compressedSize := compressedSize
     uncompressedSize := readU32At hdr 18
     fileNameLength := fileNameLength
     fileName := nameRead.1
     isDirectory := endsWithSlash nameRead.1
     extraLength := extraLength
     extra := extraRead.1
     body := decodeBody inflate method bodyRaw },
   extraRead.2.drop compressedSize)

/-- `readFileEntry` from the source: optionally checks the 4-byte
signature (returning `null` on a mismatch), then decodes the record. -/
def readFileEntry (inflate : List Nat → List Nat) (s : List Nat)
    (skipSignature : Bool) : Option (FileEntry × List Nat) :=
  if skipSignature then some (readFileEntryCore inflate s)
  else
    let sigRead := readBytesN s 4
    if readU32At sigRead.1 0 = SIGNATURE_FILE then
      some (readFileEntryCore inflate sigRead.2)
    else none

/-- The body of `readCentralDirectory` after the signature handling:
42-byte fixed header, then name, extra and comment; `lastByteAt` is derived
exactly as in the code (`firstByteAt + FILE_HEADER_SIZE + nameLen +
commentLen + extraLen + compressedSize - 1`). -/
def readCentralDirectoryCore (s1 : List Nat) :
    CentralDirectoryEntry × List Nat :=
  let hdrRead := readBytesN s1 42
  let hdr := hdrRead.1
  let fileNameLength := readU16At hdr 24
  let extraLength := readU16At hdr 26
  let fileCommentLength := readU16At hdr 28
  let compressedSize := readU32At hdr 16
  let firstByteAt := readU32At hdr 38
  let nameRead := readStringB hdrRead.2 fileNameLength
  let extraRead := readBytesN nameRead.2 extraLength
  let commentRead := readStringB extraRead.2 fileCommentLength
  ({ versionCreated := readU16At hdr 0
     versionNeeded := readU16At hdr 2
     generalPurpose := readU16At hdr 4
     compressionMethod := readU16At hdr 6
     lastModifiedTime := readU16At hdr 8
     lastModifiedDate := readU16At hdr 10
     crc := readU32At hdr 12
     compressedSize := compressedSize
     uncompressedSize := readU32At hdr 20
     fileNameLength := fileNameLength
     extraLength := extraLength
     fileCommentLength := fileCommentLength
     diskNumber := readU16At hdr 30
     internalAttributes := readU16At hdr 32
     externalAttributes := readU32At hdr 34
     firstByteAt := firstByteAt
     lastByteAt := firstByteAt + FILE_HEADER_SIZE + fileNameLength +
       fileCommentLength + extraLength + compressedSize - 1
     fileName := nameRead.1
     extra := extraRead.1
     fileComment := commentRead.1
     isDirectory := endsWithSlash nameRead.1 },
   commentRead.2)

/-- `readCentralDirectory` from the source. -/
def readCentralDirectory (s : List Nat) (skipSignature : Bool) :
    Option (CentralDirectoryEntry × List Nat) :=
  if skipSignature then some (readCentralDirectoryCore s)
  else
    let sigRead := readBytesN s 4
    if readU32At sigRead.1 0 = SIGNATURE_CENTRAL_DIRECTORY_START then
      some (readCentralDirectoryCore sigRead.2)
    else none

/-- The body of `readEndCentralDirectory` after the signature handling:
18-byte fixed header plus the trailing comment. -/
def readEndCentralDirectoryCore (s1 : List Nat) :
    CentralDirectoryEndEntry × List Nat :=
  let hdrRead := readBytesN s1 18
  let hdr := hdrRead.1
  let commentLength := readU16At hdr 16
  let commentRead := readStringB hdrRead.2 commentLength
  ({ numberOfDisks := readU16At hdr 0
     centralDirectoryStartDisk := readU16At hdr 2
     numberCentralDirectoryRecordsOnThisDisk := readU16At hdr 4
     numberCentralDirectoryRecords := readU16At hdr 6
     centralDirectorySize := readU32At hdr 8
     centralDirectoryOffset := readU32At hdr 12
     commentLength := commentLength
     comment := commentRead.1 }, commentRead.2)

/-- `readEndCentralDirectory` from the source. -/
def readEndCentralDirectory (s : List Nat) (skipSignature : Bool) :
    Option (CentralDirectoryEndEntry × List Nat) :=
  if skipSignature then some (readEndCentralDirectoryCore s)
  else
    let sigRead := readBytesN s 4
    if readU32At sigRead.1 0 = SIGNATURE_CENTRAL_DIRECTORY_END then
      some (readEndCentralDirectoryCore sigRead.2)
    else none

/-- `readNextEntry`: reads the 4-byte signature (zero-padded at end of
stream) and dispatches on it; any unrecognized value yields `none`. -/
def readNextEntry (inflate : List Nat → List Nat) (s : List Nat) :
    Option (ZipEntry × List Nat) :=
  let sigRead := readBytesN s 4
  let signature := readU32At sigRead.1 0
  if signature = SIGNATURE_FILE then
    (readFileEntry inflate sigRead.2 true).map
      (fun er => (ZipEntry.file er.1, er.2))
  else if signature = SIGNATURE_CENTRAL_DIRECTORY_START then
    (readCentralDirectory sigRead.2 true).map
      (fun er => (ZipEntry.central er.1, er.2))
  else if signature = SIGNATURE_CENTRAL_DIRECTORY_END then
    (readEndCentralDirectory sigRead.2 true).map
      (fun er => (ZipEntry.dirEnd er.1, er.2))
  else none

/-- The `zipEntries` pull loop, with explicit fuel: pulls `readNextEntry`
until it yields `none` (the stream is then closed). -/
def zipEntriesGo (inflate : List Nat → List Nat) :
    Nat → List Nat → List ZipEntry
  | 0, _ => []
  | fuel + 1, s =>
    match readNextEntry inflate s with
    | none => []
    | some er => er.1 :: zipEntriesGo inflate fuel er.2

/-- `zipEntries` over a finite stream.  Every produced record consumes at
least one byte, so `length + 1` units of fuel always reach the clean end of
the pull loop. -/
def zipEntries (inflate : List Nat → List Nat) (s : List Nat) :
    List ZipEntry :=
  zipEntriesGo inflate (s.length + 1) s

/-- `readEntireZip`: whole-archive sequential decoding, keeping only local
file records and then applying the selection predicate (the predicate
reads the `isDirectory` and `uncompressedSize` fields). -/
def readEntireZip (inflate : List Nat → List Nat)
    (p : Bool → Nat → Bool) (s : List Nat) : List FileEntry :=
  ((zipEntries inflate s).filterMap (fun e =>
    match e with
    | ZipEntry.file f => some f
    | _ => none)).filter (fun f => p f.isDirectory f.uncompressedSize)

/-- A randomly addressable byte source (`BytesSource` in the source):
`length` plus inclusive range reads. -/
structure BytesSource where
  bytes : List Nat
  deriving DecidableEq

/-- `source.length`. -/
def BytesSource.length (src : BytesSource) : Nat := src.bytes.length

/-- `source.streamBytes(start, end)` (inclusive range). -/
def BytesSource.streamBytes (src : BytesSource) (a b : Nat) : List Nat :=
  sliceBytes src.bytes a b

/-- The backward scan inside `streamCentralDirectory`: highest index `i`
(starting at `view.length - 4`) whose little-endian 32-bit word is the EOCD
signature.  The scan inspects the freshly fetched chunk only. -/
def scanDown (view : List Nat) : Nat → Option Nat
  | 0 =>
    if readU32At view 0 = SIGNATURE_CENTRAL_DIRECTORY_END then some 0
    else none
  | i + 1 =>
    if readU32At view (i + 1) = SIGNATURE_CENTRAL_DIRECTORY_END then
      some (i + 1)
    else scanDown view i

/-- The `for (let i = view.byteLength - 4; i >= 0; i--)` scan; when the
chunk has fewer than 4 bytes the loop body never runs. -/
def scanForSignature (view : List Nat) : Option Nat :=
  if view.length < 4 then none else scanDown view (view.length - 4)

/-- The clamped chunk start: `Math.max(0, chunkStart - chunkSize)` is
truncated `Nat` subtraction.  (Kept as its own definition so the 50 KiB
literal does not appear inside the bodies of the matching functions.) -/
def clampChunkStart (chunkStart : Nat) : Nat :=
  chunkStart - CENTRAL_DIRECTORY_END_SCAN_CHUNK_SIZE

/-- One iteration of the backward-scan loop of `streamCentralDirectory`,
for the already-clamped chunk start `cs`: fetch the chunk, prepend it to
the accumulator, scan the fresh chunk for the EOCD signature.  `Sum.inl`
continues with the grown accumulator, `Sum.inr` is a `return` or `throw`.
The `RangeError` branch models `view.getUint32` reading past the end of
the fresh chunk's `DataView`, which throws in JS. -/
def streamCentralDirectoryScan (bytes : List Nat) (cs : Nat)
    (centralDirectory : List Nat) :
    Sum (Nat × List Nat) (Except String (List Nat)) :=
  let chunkEnd :=
    min (cs + CENTRAL_DIRECTORY_END_SCAN_CHUNK_SIZE - 1) (bytes.length - 1)
  let chunk := sliceBytes bytes cs chunkEnd
  let acc := chunk ++ centralDirectory
  match scanForSignature chunk with
  | some i =>
    if acc.length < i + 16 + 4 then
      Sum.inr (Except.error "Central directory not found")
    else if chunk.length < i + 20 then
      Sum.inr (Except.error "RangeError")
    else
      let dirStart := readU32At chunk (i + 16)
      if dirStart < cs then
        Sum.inr (Except.ok (sliceBytes bytes dirStart (cs - 1) ++ acc))
      else if dirStart > cs then
        Sum.inr (Except.ok (acc.drop (dirStart - cs)))
      else Sum.inr (Except.ok acc)
  | none => Sum.inl (cs, acc)

/-- Dispatch on the outcome of one loop iteration: a `return`/`throw`
yields the result, otherwise the loop continues. -/
def streamCentralDirectoryResume
    (step : Sum (Nat × List Nat) (Except String (List Nat)))
    (k : Nat → List Nat → Option (Except String (List Nat))) :
    Option (Except String (List Nat)) :=
  match step with
  | Sum.inr r => some r
  | Sum.inl p => k p.1 p.2

/-- The `do/while` loop, one iteration per fuel unit.  Two facts are
mirrored from the code: the loop condition `chunkStart >= 0` is always
true (`chunkStart` is clamped at 0 by `Math.max`), so the loop can only
exit through `return` or `throw`, and the post-loop
`throw new Error('Central directory not found')` is unreachable.  Running
out of fuel (`none`) models the loop spinning forever — which it does
whenever the signature is never matched. -/
def streamCentralDirectoryGo (bytes : List Nat) :
    Nat → List Nat → Nat → Option (Except String (List Nat))
  | _, _, 0 => none
  | chunkStart, centralDirectory, fuel + 1 =>
    streamCentralDirectoryResume
      (streamCentralDirectoryScan bytes (clampChunkStart chunkStart)
        centralDirectory)
      (fun cs acc => streamCentralDirectoryGo bytes cs acc fuel)

/-- `streamCentralDirectory`: locate the end-of-central-directory record by
chunked backward scanning and return the bytes from the start of the
central directory to the end of the archive. -/
def streamCentralDirectory (src : BytesSource) :
    Option (Except String (List Nat)) :=
  streamCentralDirectoryGo src.bytes src.bytes.length [] (src.bytes.length + 1)

/-- The pull loop of `centralDirectoryEntries`: repeatedly decode central
directory records until a non-matching signature. -/
def centralDirectoryEntriesGo : Nat → List Nat → List CentralDirectoryEntry
  | 0, _ => []
  | fuel + 1, s =>
    match readCentralDirectory s false with
    | none => []
    | some er => er.1 :: centralDirectoryEntriesGo fuel er.2

/-- All central directory records decoded from the located region. -/
def centralDirectoryEntriesList (cdBytes : List Nat) :
    List CentralDirectoryEntry :=
  centralDirectoryEntriesGo (cdBytes.length + 1) cdBytes

/-- The default `maxGap` configuration of `partitionNearbyEntries`
(`-10 * 1024`). -/
def defaultMaxGap : Int := -10 * 1024

/-- The transform/flush loop of `partitionNearbyEntries`: state is
`lastFileEndsAt` and the current partition; a record whose `firstByteAt`
exceeds `lastFileEndsAt + maxGap` flushes the current partition first; on
input exhaustion the current partition is flushed. -/
def partitionNearbyEntriesGo (maxGap : Int) :
    Int → List CentralDirectoryEntry → List CentralDirectoryEntry →
      List (List CentralDirectoryEntry)
  | _, currentChunk, [] => [currentChunk]
  | lastFileEndsAt, currentChunk, e :: es =>
    if (e.firstByteAt : Int) > lastFileEndsAt + maxGap then
      currentChunk ::
        partitionNearbyEntriesGo maxGap (e.lastByteAt : Int) [e] es
    else
      partitionNearbyEntriesGo maxGap (e.lastByteAt : Int)
        (currentChunk ++ [e]) es

/-- `partitionNearbyEntries` with an explicit `maxGap`. -/
def partitionNearbyEntriesWith (maxGap : Int)
    (es : List CentralDirectoryEntry) : List (List CentralDirectoryEntry) :=
  partitionNearbyEntriesGo maxGap 0 [] es

/-- `partitionNearbyEntries()` with the default configuration. -/
def partitionNearbyEntries (es : List CentralDirectoryEntry) :
    List (List CentralDirectoryEntry) :=
  partitionNearbyEntriesWith defaultMaxGap es

/-- `requestChunkRange`: the byte range spanned by a partition, from the
first record's `firstByteAt` to the last record's `lastByteAt`.  Indexing
an empty partition (`zipEntries[0]` on `[]`) throws in JS; that is modelled
as `none`. -/
def requestChunkRange (part : List CentralDirectoryEntry) :
    Option (Nat × Nat) :=
  match part with
  | [] => none
  | e :: es => some (e.firstByteAt, (List.getLastD es e).lastByteAt)

/-- The orchestrator loop over one fetched partition stream: decode local
file records until a non-matching signature, keeping only records whose
file name appears among the partition's requested names. -/
def readFileEntriesGo (inflate : List Nat → List Nat) :
    Nat → List Nat → List FileEntry
  | 0, _ => []
  | fuel + 1, s =>
    match readFileEntry inflate s false with
    | none => []
    | some fr => fr.1 :: readFileEntriesGo inflate fuel fr.2

/-- Extraction of the requested files from one partition's byte stream. -/
def extractRequestedFiles (inflate : List Nat → List Nat)
    (stream : List Nat) (part : List CentralDirectoryEntry) :
    List FileEntry :=
  (readFileEntriesGo inflate (stream.length + 1) stream).filter
    (fun f => part.any (fun e => e.fileName == f.fileName))

/-- `fetchPartitionedEntries` composed with the orchestrator: empty
partitions are skipped by the writable's guard (`if (!zipEntries.length)
return`); each non-empty partition is fetched as one range request and
drained in submission order.  (The real queue is pushed in request
completion order; since the claim compares name sets and per-file bytes,
the submission-order sequentialization is the canonical schedule.) -/
def fetchPartitionedEntries (inflate : List Nat → List Nat)
    (src : BytesSource) (parts : List (List CentralDirectoryEntry)) :
    List FileEntry :=
  (parts.map (fun part =>
    if part.isEmpty then []
    else
      match requestChunkRange part with
      | none => []
      | some ab =>
        extractRequestedFiles inflate
          (src.streamBytes ab.1 ab.2) part)).flatten

/-- The default selection predicate of the source
(`!isDirectory || uncompressedSize !== 0`). -/
def predicate (e : CentralDirectoryEntry) : Bool :=
  !e.isDirectory || e.uncompressedSize != 0

/-- The selective pipeline applied to the located central-directory
bytes: decode the records, filter by the predicate, partition, fetch and
extract; the locator's failure (error or non-termination) propagates as
`none`. -/
def iterateZipFiles2Core (inflate : List Nat → List Nat)
    (p : Bool → Nat → Bool) (src : BytesSource)
    (located : Option (Except String (List Nat))) :
    Option (List FileEntry) :=
  match located with
  | some (Except.ok cdBytes) =>
    some (fetchPartitionedEntries inflate src
      (partitionNearbyEntries
        ((centralDirectoryEntriesList cdBytes).filter
          (fun e => p e.isDirectory e.uncompressedSize))))
  | _ => none

/-- `iterateZipFiles2`: locate the central directory, then decode, filter,
partition, fetch and extract. -/
def iterateZipFiles2 (inflate : List Nat → List Nat)
    (p : Bool → Nat → Bool) (src : BytesSource) :
    Option (List FileEntry) :=
  iterateZipFiles2Core inflate p src (streamCentralDirectory src)

/-! ## Canonical well-formed archives

A well-formed archive is modelled by the list of its files: for each file
the metadata of its local record and the stored (compressed) body bytes.
`encodeZip` lays the archive out canonically: the local records in order,
the central directory listing them in the same order with correct offsets,
then the EOCD record; all comment fields are empty. -/

/-- The data of one archived file. -/
structure LocalFile where
  version : Nat
  generalPurpose : Nat
  compressionMethod : Nat
  lastModifiedTime : Nat
  lastModifiedDate : Nat
  crc : Nat
  uncompressedSize : Nat
  fileName : List Nat
  extra : List Nat
  body : List Nat
  deriving DecidableEq

/-- The 26-byte fixed part of a local file header (after the signature). -/
def encLocalHeader (f : LocalFile) : List Nat :=
  w16 f.version ++ (w16 f.generalPurpose ++ (w16 f.compressionMethod ++
    (w16 f.lastModifiedTime ++ (w16 f.lastModifiedDate ++ (w32 f.crc ++
    (w32 f.body.length ++ (w32 f.uncompressedSize ++
    (w16 f.fileName.length ++ w16 f.extra.length))))))))

/-- A complete local file record. -/
def encLocalFile (f : LocalFile) : List Nat :=
  w32 SIGNATURE_FILE ++
    (encLocalHeader f ++ (f.fileName ++ (f.extra ++ f.body)))

/-- On-disk size of a local file record. -/
def localLen (f : LocalFile) : Nat :=
  30 + f.fileName.length + f.extra.length + f.body.length

/-- Concatenation of the local records. -/
def encLocals : List LocalFile → List Nat
  | [] => []
  | f :: fs => encLocalFile f ++ encLocals fs

/-- The 42-byte fixed part of the central directory record for a file whose
local record starts at absolute offset `off`. -/
def encCentralHeader (off : Nat) (f : LocalFile) : List Nat :=
  w16 f.version ++ (w16 f.version ++ (w16 f.generalPurpose ++
    (w16 f.compressionMethod ++ (w16 f.lastModifiedTime ++
    (w16 f.lastModifiedDate ++ (w32 f.crc ++ (w32 f.body.length ++
    (w32 f.uncompressedSize ++ (w16 f.fileName.length ++
    (w16 f.extra.length ++ (w16 0 ++ (w16 0 ++ (w16 0 ++
    (w32 0 ++ w32 off))))))))))))))

/-- A complete central directory record (empty file comment). -/
def encCentralRecord (off : Nat) (f : LocalFile) : List Nat :=
  w32 SIGNATURE_CENTRAL_DIRECTORY_START ++
    (encCentralHeader off f ++ (f.fileName ++ f.extra))

/-- On-disk size of a central directory record. -/
def centralLen (f : LocalFile) : Nat :=
  46 + f.fileName.length + f.extra.length

/-- The central directory for files whose first local record starts at
`off`. -/
def encCentrals (off : Nat) : List LocalFile → List Nat
  | [] => []
  | f :: fs => encCentralRecord off f ++ encCentrals (off + localLen f) fs

/-- Absolute offset of the central directory (total size of the locals). -/
def cdOffsetOf (fs : List LocalFile) : Nat := (fs.map localLen).sum

/-- Total size of the central directory. -/
def cdSizeOf (fs : List LocalFile) : Nat := (fs.map centralLen).sum

/-- The 18-byte fixed part of the EOCD record (after the signature). -/
def encEOCDHeader (count size off : Nat) : List Nat :=
  w16 0 ++ (w16 0 ++ (w16 count ++ (w16 count ++
    (w32 size ++ (w32 off ++ w16 0)))))

/-- The EOCD record (single disk, empty archive comment). -/
def encEOCDRecord (count size off : Nat) : List Nat :=
  w32 SIGNATURE_CENTRAL_DIRECTORY_END ++ encEOCDHeader count size off

/-- The canonical byte layout of a whole archive. -/
def encodeZip (fs : List LocalFile) : List Nat :=
  encLocals fs ++ (encCentrals 0 fs ++
    encEOCDRecord fs.length (cdSizeOf fs) (cdOffsetOf fs))

/-- The `FileEntry` that decoding the local record of `f` produces (the
`version` field is read as a 32-bit word, so it also captures the
general-purpose flags in its high half, exactly as the code does). -/
def fileEntryOf (inflate : List Nat → List Nat) (f : LocalFile) :
    FileEntry :=
  { version := f.version + 65536 * f.generalPurpose
    generalPurpose := f.generalPurpose
    compressionMethod := f.compressionMethod
    lastModifiedTime := f.lastModifiedTime
    lastModifiedDate := f.lastModifiedDate
    crc := f.crc
    compressedSize := f.body.length
    uncompressedSize := f.uncompressedSize
    fileNameLength := f.fileName.length
    fileName := f.fileName
    isDirectory := endsWithSlash f.fileName
    extraLength := f.extra.length
    extra := f.extra
    body := decodeBody inflate f.compressionMethod f.body }

/-- The `CentralDirectoryEntry` that decoding the central record of `f`
(at local offset `off`) produces. -/
def centralEntryOf (off : Nat) (f : LocalFile) : CentralDirectoryEntry :=
  { versionCreated := f.version
    versionNeeded := f.version
    generalPurpose := f.generalPurpose
    compressionMethod := f.compressionMethod
    lastModifiedTime := f.lastModifiedTime
    lastModifiedDate := f.lastModifiedDate
    crc := f.crc
    compressedSize := f.body.length
    uncompressedSize := f.uncompressedSize
    fileNameLength := f.fileName.length
    extraLength := f.extra.length
    fileCommentLength := 0
    diskNumber := 0
    internalAttributes := 0
    externalAttributes := 0
    firstByteAt := off
    lastByteAt := off + FILE_HEADER_SIZE + f.fileName.length + 0 +
      f.extra.length + f.body.length - 1
    fileName := f.fileName
    extra := f.extra
    fileComment := []
    isDirectory := endsWithSlash f.fileName }

/-- The central directory entries of a canonical archive, with their
offsets. -/
def centralEntriesOf (off : Nat) : List LocalFile → List CentralDirectoryEntry
  | [] => []
  | f :: fs => centralEntryOf off f :: centralEntriesOf (off + localLen f) fs

/-- The `CentralDirectoryEndEntry` decoded from a canonical archive. -/
def eocdEntryOf (fs : List LocalFile) : CentralDirectoryEndEntry :=
  { numberOfDisks := 0
    centralDirectoryStartDisk := 0
    numberCentralDirectoryRecordsOnThisDisk := fs.length
    numberCentralDirectoryRecords := fs.length
    centralDirectorySize := cdSizeOf fs
    centralDirectoryOffset := cdOffsetOf fs
    commentLength := 0
    comment := [] }

/-- Well-formedness of one file: every numeric field fits its on-disk
width and all content bytes are bytes. -/
def wfLocalFile (f : LocalFile) : Prop :=
  f.version < 65536 ∧ f.generalPurpose < 65536 ∧
  f.compressionMethod < 65536 ∧ f.lastModifiedTime < 65536 ∧
  f.lastModifiedDate < 65536 ∧ f.crc < 4294967296 ∧
  f.uncompressedSize < 4294967296 ∧ f.body.length < 4294967296 ∧
  f.fileName.length < 65536 ∧ f.extra.length < 65536 ∧
  (∀ b ∈ f.fileName, b < 256) ∧ (∀ b ∈ f.extra, b < 256) ∧
  (∀ b ∈ f.body, b < 256)

instance : DecidablePred wfLocalFile := fun f => by
  unfold wfLocalFile; infer_instance

/-- Well-formedness of a whole canonical archive: every file well-formed,
the derived EOCD fields fit their widths, and — as the backward scan
requires — the EOCD signature word occurs at exactly one position in the
archive (its true position, 22 bytes before the end). -/
def wfArchive (fs : List LocalFile) : Prop :=
  (∀ f ∈ fs, wfLocalFile f) ∧ fs.length < 65536 ∧
  cdOffsetOf fs < 4294967296 ∧ cdSizeOf fs < 4294967296 ∧
  (∀ i < (encodeZip fs).length,
    readU32At (encodeZip fs) i = SIGNATURE_CENTRAL_DIRECTORY_END →
      i = (encodeZip fs).length - 22)

instance : DecidablePred wfArchive := fun fs => by
  unfold wfArchive; infer_instance

/-- The sequence of range requests issued by the writable side of
`fetchPartitionedEntries`: an empty partition is skipped by the guard
(`if (!zipEntries.length) return`) and issues nothing; every other
partition issues exactly one `requestChunkRange`. -/
def partitionRequests : List (List CentralDirectoryEntry) →
    List (Option (Nat × Nat))
  | [] => []
  | part :: rest =>
    if part.isEmpty then partitionRequests rest
    else requestChunkRange part :: partitionRequests rest

/-- Scheduler state of the bounded fetcher: partitions not yet submitted,
range requests currently holding a gate slot, and completed requests. -/
structure FetchState where
  pending : Nat
  active : Nat
  completed : Nat
  deriving DecidableEq

/-- Modelled from the spec: the concurrency gate (`Semaphore` from
`@php-wasm/util`) is not among these sources; per the spec it is a
bounded-resource gate of capacity `cap` whose `acquire` suspends while all
slots are taken.  `start` submits a pending partition: it acquires a slot
(possible only while `active < cap`) and then issues `source.streamBytes`;
`finish` is the `finally` block releasing the slot afterward. -/
inductive FetchStep (cap : Nat) : FetchState → FetchState → Prop
  | start (p a c : Nat) (h : a < cap) :
      FetchStep cap ⟨p + 1, a, c⟩ ⟨p, a + 1, c⟩
  | finish (p a c : Nat) :
      FetchStep cap ⟨p, a + 1, c⟩ ⟨p, a, c + 1⟩

/-- Reachability under the fetcher's scheduler steps. -/
def FetchReachable (cap : Nat) (s t : FetchState) : Prop :=
  Relation.ReflTransGen (FetchStep cap) s t

/-- A sample central directory record: a 10-byte stored file `a` at the
start of an archive. -/
def sampleEntry : CentralDirectoryEntry :=
  { versionCreated := 20
    versionNeeded := 20
    generalPurpose := 0
    compressionMethod := 0
    lastModifiedTime := 0
    lastModifiedDate := 0
    crc := 0
    compressedSize := 10
    uncompressedSize := 10
    fileNameLength := 1
    extraLength := 0
    fileCommentLength := 0
    diskNumber := 0
    internalAttributes := 0
    externalAttributes := 0
    firstByteAt := 0
    lastByteAt := 42
    fileName := [97]
    extra := []
    fileComment := []
    isDirectory := false }

/-- A sample archive: a 2-byte stored file `a`, a zero-size directory
entry `d/`, and a 1-byte stored file `d/b`. -/
def zipExampleFiles : List LocalFile :=
  [{ version := 20, generalPurpose := 0, compressionMethod := 0,
     lastModifiedTime := 0, lastModifiedDate := 0, crc := 0,
     uncompressedSize := 2, fileName := [97], extra := [],
     body := [10, 20] },
   { version := 20, generalPurpose := 0, compressionMethod := 0,
     lastModifiedTime := 0, lastModifiedDate := 0, crc := 0,
     uncompressedSize := 0, fileName := [100, 47], extra := [],
     body := [] },
   { version := 20, generalPurpose := 0, compressionMethod := 0,
     lastModifiedTime := 0, lastModifiedDate := 0, crc := 0,
     uncompressedSize := 1, fileName := [100, 47, 98], extra := [],
     body := [9] }]

/-! ## Cursor lemmas -/

theorem take_len_append {α : Type} (a b : List α) :
    (a ++ b).take a.length = a := by
  simp

theorem drop_len_append {α : Type} (a b : List α) :
    (a ++ b).drop a.length = b := by
  simp

theorem concatNBytes_exact {l : List Nat} {n : Nat} (h : l.length = n) :
    concatNBytes n l = l := by
  subst h
  simp [concatNBytes]

theorem readBytesN_append {a : List Nat} (b : List Nat) {n : Nat}
    (h : a.length = n) : readBytesN (a ++ b) n = (a, b) := by
  subst h
  simp [readBytesN, concatNBytes]

theorem readStringB_append {a : List Nat} (b : List Nat) {n : Nat}
    (h : a.length = n) : readStringB (a ++ b) n = (a, b) := by
  subst h
  simp [readStringB]

theorem readU32_w32 (x : Nat) : readU32At (w32 x) 0 = x % 4294967296 := by
  show x % 256 + 256 * (x / 256 % 256) + 65536 * (x / 65536 % 256) +
    16777216 * (x / 16777216 % 256) = x % 4294967296
  omega

theorem encLocalHeader_length (f : LocalFile) :
    (encLocalHeader f).length = 26 := by
  simp [encLocalHeader, w16, w32]

theorem encCentralHeader_length (off : Nat) (f : LocalFile) :
    (encCentralHeader off f).length = 42 := by
  simp [encCentralHeader, w16, w32]

theorem encLocalFile_length (f : LocalFile) :
    (encLocalFile f).length = localLen f := by
  simp [encLocalFile, localLen, encLocalHeader_length, w32]
  omega

theorem encCentralRecord_length (off : Nat) (f : LocalFile) :
    (encCentralRecord off f).length = centralLen f := by
  simp [encCentralRecord, centralLen, encCentralHeader_length, w32]
  omega

theorem encEOCDRecord_length (count size off : Nat) :
    (encEOCDRecord count size off).length = 22 := by
  simp [encEOCDRecord, encEOCDHeader, w16, w32]

/-! ## Header field extraction

Each lemma recovers one field from the byte image of a fixed header, at the
offset the corresponding `DataView` read uses. -/

theorem lhVersion (f : LocalFile) (h1 : f.version < 65536)
    (h2 : f.generalPurpose < 65536) :
    readU32At (encLocalHeader f) 0 =
      f.version + 65536 * f.generalPurpose := by
  show f.version % 256 + 256 * (f.version / 256 % 256) +
    65536 * (f.generalPurpose % 256) +
    16777216 * (f.generalPurpose / 256 % 256) =
    f.version + 65536 * f.generalPurpose
  omega

theorem lhGeneralPurpose (f : LocalFile) (h : f.generalPurpose < 65536) :
    readU16At (encLocalHeader f) 2 = f.generalPurpose := by
  show f.generalPurpose % 256 + 256 * (f.generalPurpose / 256 % 256) =
    f.generalPurpose
  omega

theorem lhMethod (f : LocalFile) (h : f.compressionMethod < 65536) :
    readU16At (encLocalHeader f) 4 = f.compressionMethod := by
  show f.compressionMethod % 256 + 256 * (f.compressionMethod / 256 % 256) =
    f.compressionMethod
  omega

theorem lhTime (f : LocalFile) (h : f.lastModifiedTime < 65536) :
    readU16At (encLocalHeader f) 6 = f.lastModifiedTime := by
  show f.lastModifiedTime % 256 + 256 * (f.lastModifiedTime / 256 % 256) =
    f.lastModifiedTime
  omega

theorem lhDate (f : LocalFile) (h : f.lastModifiedDate < 65536) :
    readU16At (encLocalHeader f) 8 = f.lastModifiedDate := by
  show f.lastModifiedDate % 256 + 256 * (f.lastModifiedDate / 256 % 256) =
    f.lastModifiedDate
  omega

theorem lhCrc (f : LocalFile) (h : f.crc < 4294967296) :
    readU32At (encLocalHeader f) 10 = f.crc := by
  show f.crc % 256 + 256 * (f.crc / 256 % 256) +
    65536 * (f.crc / 65536 % 256) + 16777216 * (f.crc / 16777216 % 256) =
    f.crc
  omega

theorem lhCompressedSize (f : LocalFile) (h : f.body.length < 4294967296) :
    readU32At (encLocalHeader f) 14 = f.body.length := by
  show f.body.length % 256 + 256 * (f.body.length / 256 % 256) +
    65536 * (f.body.length / 65536 % 256) +
    16777216 * (f.body.length / 16777216 % 256) = f.body.length
  omega

theorem lhUncompressedSize (f : LocalFile)
    (h : f.uncompressedSize < 4294967296) :
    readU32At (encLocalHeader f) 18 = f.uncompressedSize := by
  show f.uncompressedSize % 256 + 256 * (f.uncompressedSize / 256 % 256) +
    65536 * (f.uncompressedSize / 65536 % 256) +
    16777216 * (f.uncompressedSize / 16777216 % 256) = f.uncompressedSize
  omega

theorem lhNameLen (f : LocalFile) (h : f.fileName.length < 65536) :
    readU16At (encLocalHeader f) 22 = f.fileName.length := by
  show f.fileName.length % 256 + 256 * (f.fileName.length / 256 % 256) =
    f.fileName.length
  omega

theorem lhExtraLen (f : LocalFile) (h : f.extra.length < 65536) :
    readU16At (encLocalHeader f) 24 = f.extra.length := by
  show f.extra.length % 256 + 256 * (f.extra.length / 256 % 256) =
    f.extra.length
  omega

theorem chVersionCreated (off : Nat) (f : LocalFile)
    (h : f.version < 65536) :
    readU16At (encCentralHeader off f) 0 = f.version := by
  show f.version % 256 + 256 * (f.version / 256 % 256) = f.version
  omega

theorem chVersionNeeded (off : Nat) (f : LocalFile)
    (h : f.version < 65536) :
    readU16At (encCentralHeader off f) 2 = f.version := by
  show f.version % 256 + 256 * (f.version / 256 % 256) = f.version
  omega

theorem chGeneralPurpose (off : Nat) (f : LocalFile)
    (h : f.generalPurpose < 65536) :
    readU16At (encCentralHeader off f) 4 = f.generalPurpose := by
  show f.generalPurpose % 256 + 256 * (f.generalPurpose / 256 % 256) =
    f.generalPurpose
  omega

theorem chMethod (off : Nat) (f : LocalFile)
    (h : f.compressionMethod < 65536) :
    readU16At (encCentralHeader off f) 6 = f.compressionMethod := by
  show f.compressionMethod % 256 + 256 * (f.compressionMethod / 256 % 256) =
    f.compressionMethod
  omega

theorem chTime (off : Nat) (f : LocalFile)
    (h : f.lastModifiedTime < 65536) :
    readU16At (encCentralHeader off f) 8 = f.lastModifiedTime := by
  show f.lastModifiedTime % 256 + 256 * (f.lastModifiedTime / 256 % 256) =
    f.lastModifiedTime
  omega

theorem chDate (off : Nat) (f : LocalFile)
    (h : f.lastModifiedDate < 65536) :
    readU16At (encCentralHeader off f) 10 = f.lastModifiedDate := by
  show f.lastModifiedDate % 256 + 256 * (f.lastModifiedDate / 256 % 256) =
    f.lastModifiedDate
  omega

theorem chCrc (off : Nat) (f : LocalFile) (h : f.crc < 4294967296) :
    readU32At (encCentralHeader off f) 12 = f.crc := by
  show f.crc % 256 + 256 * (f.crc / 256 % 256) +
    65536 * (f.crc / 65536 % 256) + 16777216 * (f.crc / 16777216 % 256) =
    f.crc
  omega

theorem chCompressedSize (off : Nat) (f : LocalFile)
    (h : f.body.length < 4294967296) :
    readU32At (encCentralHeader off f) 16 = f.body.length := by
  show f.body.length % 256 + 256 * (f.body.length / 256 % 256) +
    65536 * (f.body.length / 65536 % 256) +
    16777216 * (f.body.length / 16777216 % 256) = f.body.length
  omega

theorem chUncompressedSize (off : Nat) (f : LocalFile)
    (h : f.uncompressedSize < 4294967296) :
    readU32At (encCentralHeader off f) 20 = f.uncompressedSize := by
  show f.uncompressedSize % 256 + 256 * (f.uncompressedSize / 256 % 256) +
    65536 * (f.uncompressedSize / 65536 % 256) +
    16777216 * (f.uncompressedSize / 16777216 % 256) = f.uncompressedSize
  omega

theorem chNameLen (off : Nat) (f : LocalFile)
    (h : f.fileName.length < 65536) :
    readU16At (encCentralHeader off f) 24 = f.fileName.length := by
  show f.fileName.length % 256 + 256 * (f.fileName.length / 256 % 256) =
    f.fileName.length
  omega

theorem chExtraLen (off : Nat) (f : LocalFile)
    (h : f.extra.length < 65536) :
    readU16At (encCentralHeader off f) 26 = f.extra.length := by
  show f.extra.length % 256 + 256 * (f.extra.length / 256 % 256) =
    f.extra.length
  omega

theorem chCommentLen (off : Nat) (f : LocalFile) :
    readU16At (encCentralHeader off f) 28 = 0 := by
  show 0 % 256 + 256 * (0 / 256 % 256) = 0
  omega

theorem chDisk (off : Nat) (f : LocalFile) :
    readU16At (encCentralHeader off f) 30 = 0 := by
  show 0 % 256 + 256 * (0 / 256 % 256) = 0
  omega

theorem chIattr (off : Nat) (f : LocalFile) :
    readU16At (encCentralHeader off f) 32 = 0 := by
  show 0 % 256 + 256 * (0 / 256 % 256) = 0
  omega

theorem chEattr (off : Nat) (f : LocalFile) :
    readU32At (encCentralHeader off f) 34 = 0 := by
  show 0 % 256 + 256 * (0 / 256 % 256) + 65536 * (0 / 65536 % 256) +
    16777216 * (0 / 16777216 % 256) = 0
  omega

theorem chFirstByteAt (off : Nat) (f : LocalFile) (h : off < 4294967296) :
    readU32At (encCentralHeader off f) 38 = off := by
  show off % 256 + 256 * (off / 256 % 256) + 65536 * (off / 65536 % 256) +
    16777216 * (off / 16777216 % 256) = off
  omega

theorem ehDisks (count size off : Nat) :
    readU16At (encEOCDHeader count size off) 0 = 0 := by
  show 0 % 256 + 256 * (0 / 256 % 256) = 0
  omega

theorem ehStartDisk (count size off : Nat) :
    readU16At (encEOCDHeader count size off) 2 = 0 := by
  show 0 % 256 + 256 * (0 / 256 % 256) = 0
  omega

theorem ehRecsDisk (count size off : Nat) (h : count < 65536) :
    readU16At (encEOCDHeader count size off) 4 = count := by
  show count % 256 + 256 * (count / 256 % 256) = count
  omega

theorem ehRecs (count size off : Nat) (h : count < 65536) :
    readU16At (encEOCDHeader count size off) 6 = count := by
  show count % 256 + 256 * (count / 256 % 256) = count
  omega

theorem ehSize (count size off : Nat) (h : size < 4294967296) :
    readU32At (encEOCDHeader count size off) 8 = size := by
  show size % 256 + 256 * (size / 256 % 256) +
    65536 * (size / 65536 % 256) + 16777216 * (size / 16777216 % 256) =
    size
  omega

theorem ehOffset (count size off : Nat) (h : off < 4294967296) :
    readU32At (encEOCDHeader count size off) 12 = off := by
  show off % 256 + 256 * (off / 256 % 256) + 65536 * (off / 65536 % 256) +
    16777216 * (off / 16777216 % 256) = off
  omega

theorem ehCommentLen (count size off : Nat) :
    readU16At (encEOCDHeader count size off) 16 = 0 := by
  show 0 % 256 + 256 * (0 / 256 % 256) = 0
  omega

theorem encEOCDHeader_length (count size off : Nat) :
    (encEOCDHeader count size off).length = 18 := by
  simp [encEOCDHeader, w16, w32]

/-! ## Record decode/encode roundtrips -/

theorem readU32_sigFile :
    readU32At (w32 SIGNATURE_FILE) 0 = SIGNATURE_FILE := by decide

theorem readU32_sigCentral :
    readU32At (w32 SIGNATURE_CENTRAL_DIRECTORY_START) 0 =
      SIGNATURE_CENTRAL_DIRECTORY_START := by decide

theorem readU32_sigEnd :
    readU32At (w32 SIGNATURE_CENTRAL_DIRECTORY_END) 0 =
      SIGNATURE_CENTRAL_DIRECTORY_END := by decide

theorem readFileEntryCore_enc (inflate : List Nat → List Nat)
    (f : LocalFile) (r : List Nat) (hf : wfLocalFile f) :
    readFileEntryCore inflate
      (encLocalHeader f ++ (f.fileName ++ (f.extra ++ (f.body ++ r)))) =
      (fileEntryOf inflate f, r) := by
  obtain ⟨h1, h2, h3, h4, h5, h6, h7, h8, h9, h10, -, -, -⟩ := hf
  simp only [readFileEntryCore,
    readBytesN_append _ (encLocalHeader_length f)]
  simp only [lhVersion f h1 h2, lhGeneralPurpose f h2, lhMethod f h3,
    lhTime f h4, lhDate f h5, lhCrc f h6, lhCompressedSize f h8,
    lhUncompressedSize f h7, lhNameLen f h9, lhExtraLen f h10]
  simp only [readStringB_append _ rfl, readBytesN_append _ rfl]
  simp [fileEntryOf, take_len_append, drop_len_append]

theorem readFileEntry_enc_skip (inflate : List Nat → List Nat)
    (f : LocalFile) (r : List Nat) (hf : wfLocalFile f) :
    readFileEntry inflate
      (encLocalHeader f ++ (f.fileName ++ (f.extra ++ (f.body ++ r))))
      true = some (fileEntryOf inflate f, r) := by
  simp [readFileEntry, readFileEntryCore_enc inflate f r hf]

theorem readFileEntry_enc (inflate : List Nat → List Nat)
    (f : LocalFile) (r : List Nat) (hf : wfLocalFile f) :
    readFileEntry inflate (encLocalFile f ++ r) false =
      some (fileEntryOf inflate f, r) := by
  have hs : encLocalFile f ++ r =
      w32 SIGNATURE_FILE ++ (encLocalHeader f ++ (f.fileName ++
        (f.extra ++ (f.body ++ r)))) := by
    simp [encLocalFile]
  rw [hs]
  simp [readFileEntry, readBytesN_append _ (w32_length SIGNATURE_FILE),
    readU32_sigFile, readFileEntryCore_enc inflate f r hf]

theorem readFileEntry_wrongSig (inflate : List Nat → List Nat) (x : Nat)
    (s : List Nat) (h : x % 4294967296 ≠ SIGNATURE_FILE) :
    readFileEntry inflate (w32 x ++ s) false = none := by
  simp [readFileEntry, readBytesN_append _ (w32_length x), readU32_w32, h]

theorem readFileEntry_trailing (inflate : List Nat → List Nat) :
    readFileEntry inflate [80, 75] false = none := by rfl

theorem readCentralDirectoryCore_enc (off : Nat) (f : LocalFile)
    (r : List Nat) (hf : wfLocalFile f) (hoff : off < 4294967296) :
    readCentralDirectoryCore
      (encCentralHeader off f ++ (f.fileName ++ (f.extra ++ r))) =
      (centralEntryOf off f, r) := by
  obtain ⟨h1, h2, h3, h4, h5, h6, h7, h8, h9, h10, -, -, -⟩ := hf
  simp only [readCentralDirectoryCore,
    readBytesN_append _ (encCentralHeader_length off f)]
  simp only [chVersionCreated off f h1, chVersionNeeded off f h1,
    chGeneralPurpose off f h2, chMethod off f h3, chTime off f h4,
    chDate off f h5, chCrc off f h6, chCompressedSize off f h8,
    chUncompressedSize off f h7, chNameLen off f h9, chExtraLen off f h10,
    chCommentLen off f, chDisk off f, chIattr off f, chEattr off f,
    chFirstByteAt off f hoff]
  simp only [readStringB_append _ rfl, readBytesN_append _ rfl]
  simp [centralEntryOf, readStringB]

theorem readCentralDirectory_enc_skip (off : Nat) (f : LocalFile)
    (r : List Nat) (hf : wfLocalFile f) (hoff : off < 4294967296) :
    readCentralDirectory
      (encCentralHeader off f ++ (f.fileName ++ (f.extra ++ r))) true =
      some (centralEntryOf off f, r) := by
  simp [readCentralDirectory, readCentralDirectoryCore_enc off f r hf hoff]

theorem readCentralDirectory_enc (off : Nat) (f : LocalFile)
    (r : List Nat) (hf : wfLocalFile f) (hoff : off < 4294967296) :
    readCentralDirectory (encCentralRecord off f ++ r) false =
      some (centralEntryOf off f, r) := by
  have hs : encCentralRecord off f ++ r =
      w32 SIGNATURE_CENTRAL_DIRECTORY_START ++
        (encCentralHeader off f ++ (f.fileName ++ (f.extra ++ r))) := by
    simp [encCentralRecord]
  rw [hs]
  simp [readCentralDirectory,
    readBytesN_append _ (w32_length SIGNATURE_CENTRAL_DIRECTORY_START),
    readU32_sigCentral, readCentralDirectoryCore_enc off f r hf hoff]

theorem readCentralDirectory_wrongSig (x : Nat) (s : List Nat)
    (h : x % 4294967296 ≠ SIGNATURE_CENTRAL_DIRECTORY_START) :
    readCentralDirectory (w32 x ++ s) false = none := by
  simp [readCentralDirectory, readBytesN_append _ (w32_length x),
    readU32_w32, h]

theorem readEndCentralDirectoryCore_enc (count size off : Nat)
    (r : List Nat) (hc : count < 65536) (hs : size < 4294967296)
    (ho : off < 4294967296) :
    readEndCentralDirectoryCore (encEOCDHeader count size off ++ r) =
      (⟨0, 0, count, count, size, off, 0, []⟩, r) := by
  simp only [readEndCentralDirectoryCore,
    readBytesN_append _ (encEOCDHeader_length count size off)]
  simp only [ehDisks, ehStartDisk, ehRecsDisk count size off hc,
    ehRecs count size off hc, ehSize count size off hs,
    ehOffset count size off ho, ehCommentLen]
  simp [readStringB]

theorem readNextEntry_local (inflate : List Nat → List Nat)
    (f : LocalFile) (r : List Nat) (hf : wfLocalFile f) :
    readNextEntry inflate (encLocalFile f ++ r) =
      some (ZipEntry.file (fileEntryOf inflate f), r) := by
  have hs : encLocalFile f ++ r =
      w32 SIGNATURE_FILE ++ (encLocalHeader f ++ (f.fileName ++
        (f.extra ++ (f.body ++ r)))) := by
    simp [encLocalFile]
  rw [hs]
  simp [readNextEntry, readBytesN_append _ (w32_length SIGNATURE_FILE),
    readU32_sigFile, readFileEntry, readFileEntryCore_enc inflate f r hf]

theorem readNextEntry_central (inflate : List Nat → List Nat) (off : Nat)
    (f : LocalFile) (r : List Nat) (hf : wfLocalFile f)
    (hoff : off < 4294967296) :
    readNextEntry inflate (encCentralRecord off f ++ r) =
      some (ZipEntry.central (centralEntryOf off f), r) := by
  have hs : encCentralRecord off f ++ r =
      w32 SIGNATURE_CENTRAL_DIRECTORY_START ++
        (encCentralHeader off f ++ (f.fileName ++ (f.extra ++ r))) := by
    simp [encCentralRecord]
  rw [hs]
  simp only [readNextEntry,
    readBytesN_append _ (w32_length SIGNATURE_CENTRAL_DIRECTORY_START),
    readU32_sigCentral]
  simp [readCentralDirectory, readCentralDirectoryCore_enc off f r hf hoff,
    SIGNATURE_CENTRAL_DIRECTORY_START, SIGNATURE_FILE]

theorem readNextEntry_eocd (inflate : List Nat → List Nat)
    (count size off : Nat) (r : List Nat) (hc : count < 65536)
    (hs : size < 4294967296) (ho : off < 4294967296) :
    readNextEntry inflate (encEOCDRecord count size off ++ r) =
      some (ZipEntry.dirEnd ⟨0, 0, count, count, size, off, 0, []⟩, r) := by
  have hsplit : encEOCDRecord count size off ++ r =
      w32 SIGNATURE_CENTRAL_DIRECTORY_END ++
        (encEOCDHeader count size off ++ r) := by
    simp [encEOCDRecord]
  rw [hsplit]
  simp only [readNextEntry,
    readBytesN_append _ (w32_length SIGNATURE_CENTRAL_DIRECTORY_END),
    readU32_sigEnd]
  simp [readEndCentralDirectory,
    readEndCentralDirectoryCore_enc count size off r hc hs ho,
    SIGNATURE_CENTRAL_DIRECTORY_END, SIGNATURE_FILE,
    SIGNATURE_CENTRAL_DIRECTORY_START]

theorem readNextEntry_nil (inflate : List Nat → List Nat) :
    readNextEntry inflate [] = none := by rfl


/-! ## Partitioner lemmas -/

theorem partitionGo_flatten (maxGap : Int) :
    ∀ (es : List CentralDirectoryEntry) (lastEnd : Int)
      (cur : List CentralDirectoryEntry),
      (partitionNearbyEntriesGo maxGap lastEnd cur es).flatten = cur ++ es := by
  intro es
  induction es with
  | nil => intro lastEnd cur; simp [partitionNearbyEntriesGo]
  | cons e es ih =>
    intro lastEnd cur
    by_cases h : (e.firstByteAt : Int) > lastEnd + maxGap
    · simp [partitionNearbyEntriesGo, h, ih]
    · simp [partitionNearbyEntriesGo, h, ih]

theorem partitionGo_nonempty (maxGap : Int) :
    ∀ (es : List CentralDirectoryEntry) (lastEnd : Int)
      (cur : List CentralDirectoryEntry), cur ≠ [] →
      ∀ p ∈ partitionNearbyEntriesGo maxGap lastEnd cur es, p ≠ [] := by
  intro es
  induction es with
  | nil =>
    intro lastEnd cur hcur p hp
    simp [partitionNearbyEntriesGo] at hp
    simpa [hp] using hcur
  | cons e es ih =>
    intro lastEnd cur hcur p hp
    by_cases h : (e.firstByteAt : Int) > lastEnd + maxGap
    · simp only [partitionNearbyEntriesGo, if_pos h, List.mem_cons] at hp
      rcases hp with rfl | hp
      · exact hcur
      · exact ih (e.lastByteAt : Int) [e] (by simp) p hp
    · simp only [partitionNearbyEntriesGo, if_neg h] at hp
      exact ih (e.lastByteAt : Int) (cur ++ [e]) (by simp) p hp

/-! ## Claim theorems: byte cursor, predicate, partitioner, fetcher -/

/-- C4 counterexample: reading 4 bytes from a source holding only the two
bytes `[1, 2]` does not fail — it returns the 4-byte zero-padded buffer
`[1, 2, 0, 0]` (neither a failure nor a short buffer, contradicting the
claim that `readBytes` fails when the source ends early). -/
theorem claim_c4_counterexample :
    (readBytesN [1, 2] 4).1 = [1, 2, 0, 0] ∧
      (readBytesN [1, 2] 4).1 ≠ [1, 2] := by decide

/-- C4 (amended): `readBytes(stream, n)` always returns exactly `n` bytes:
the available source bytes followed by zero padding when the source ends
early, and exactly the first `n` source bytes when the source holds at
least `n` bytes. -/
theorem claim_c4_amended (s : List Nat) (n : Nat) :
    (readBytesN s n).1.length = n ∧
    (readBytesN s n).1 = s.take n ++ List.replicate (n - s.length) 0 ∧
    (n ≤ s.length → (readBytesN s n).1 = s.take n) := by
  have key : (readBytesN s n).1 =
      s.take n ++ List.replicate (n - s.length) 0 := by
    simp only [readBytesN, concatNBytes, List.take_take, min_self]
    congr 1
    rw [List.length_take]
    congr 1
    omega
  refine ⟨?_, key, fun h => ?_⟩
  · rw [key]
    simp only [List.length_append, List.length_take, List.length_replicate]
    omega
  · rw [key]
    have h0 : n - s.length = 0 := by omega
    simp [h0]

/-- C4 amended witness at a concrete input: a 5-byte source read with
`n = 3` yields exactly the first 3 bytes. -/
theorem claim_c4_amended_witness :
    (readBytesN [1, 2, 3, 4, 5] 3).1 = [1, 2, 3] :=
  (claim_c4_amended [1, 2, 3, 4, 5] 3).2.2 (by decide)

/-- C9: the default selection predicate includes a central-directory entry
iff the entry is not a zero-size directory entry: a directory entry with
nonzero uncompressed size is included, a non-directory entry is included
regardless of size, and a size-0 directory entry is excluded. -/
theorem claim_c9_default_predicate (e : CentralDirectoryEntry) :
    predicate e = true ↔
      ¬(e.isDirectory = true ∧ e.uncompressedSize = 0) := by
  cases h : e.isDirectory <;> simp [predicate, h]

/-- C10: a sequential stream exhausted exactly at a record boundary closes
cleanly: the 4-byte signature read at end of stream yields the zero-filled
buffer, which matches none of the three record signatures, so
`readNextEntry` returns `none` and the `zipEntries` pull loop closes
without error. -/
theorem claim_c10_clean_close_at_eos (inflate : List Nat → List Nat) :
    (readBytesN [] 4).1 = [0, 0, 0, 0] ∧
    readU32At [0, 0, 0, 0] 0 ≠ SIGNATURE_FILE ∧
    readU32At [0, 0, 0, 0] 0 ≠ SIGNATURE_CENTRAL_DIRECTORY_START ∧
    readU32At [0, 0, 0, 0] 0 ≠ SIGNATURE_CENTRAL_DIRECTORY_END ∧
    readNextEntry inflate [] = none ∧
    (∀ fuel, zipEntriesGo inflate fuel [] = []) := by
  refine ⟨by decide, by decide, by decide, by decide, rfl, ?_⟩
  intro fuel
  cases fuel with
  | zero => rfl
  | succ fuel => simp [zipEntriesGo, readNextEntry_nil]

/-- C5: for every finite input sequence of central-directory records (and
every gap configuration, in particular the default), the concatenation of
the emitted partitions equals the input sequence in order: every record
appears in exactly one partition, none is dropped, none is duplicated. -/
theorem claim_c5_partition_exact_cover (maxGap : Int)
    (es : List CentralDirectoryEntry) :
    (partitionNearbyEntriesWith maxGap es).flatten = es ∧
    (partitionNearbyEntries es).flatten = es := by
  constructor
  · simpa using partitionGo_flatten maxGap es 0 []
  · simpa using partitionGo_flatten defaultMaxGap es 0 []

/-- C6 counterexample: with the default `maxGap = -10240`, the very first
record already triggers a flush (`firstByteAt ≥ 0 > 0 + maxGap`), so the
partitioner emits an empty partition first — refuting the claim that every
emitted partition is non-empty (the input `[sampleEntry]` is trivially
non-decreasing in `firstByteAt`). -/
theorem claim_c6_counterexample :
    [] ∈ partitionNearbyEntries [sampleEntry] := by decide

/-- C6 (amended): with the default configuration the first emitted
partition is always empty, and every other emitted partition is
non-empty. -/
theorem claim_c6_amended (es : List CentralDirectoryEntry) :
    (partitionNearbyEntries es).head? = some [] ∧
    ∀ p ∈ (partitionNearbyEntries es).tail, p ≠ [] := by
  cases es with
  | nil => exact ⟨rfl, by simp [partitionNearbyEntries,
      partitionNearbyEntriesWith, partitionNearbyEntriesGo]⟩
  | cons e es =>
    have hflush : (e.firstByteAt : Int) > 0 + defaultMaxGap := by
      simp only [defaultMaxGap]
      omega
    constructor
    · simp only [partitionNearbyEntries, partitionNearbyEntriesWith,
        partitionNearbyEntriesGo, if_pos hflush, List.head?_cons]
    · intro p hp
      simp only [partitionNearbyEntries, partitionNearbyEntriesWith,
        partitionNearbyEntriesGo, if_pos hflush, List.tail_cons] at hp
      exact partitionGo_nonempty defaultMaxGap es (e.lastByteAt : Int) [e]
        (by simp) p hp

/-- C6 amended witness at a concrete input. -/
theorem claim_c6_amended_witness :
    (partitionNearbyEntries [sampleEntry]).head? = some [] ∧
      [sampleEntry] ≠ [] :=
  ⟨(claim_c6_amended [sampleEntry]).1,
   (claim_c6_amended [sampleEntry]).2 [sampleEntry] (by decide)⟩

/-- C8: handed an empty partition, the fetcher performs no range request
and emits nothing (prepending an empty partition changes neither the
request sequence nor the output), and the first/last indexing inside
`requestChunkRange` succeeds on every non-empty partition. -/
theorem claim_c8_empty_partition_noop (inflate : List Nat → List Nat)
    (src : BytesSource) (parts : List (List CentralDirectoryEntry)) :
    partitionRequests ([] :: parts) = partitionRequests parts ∧
    fetchPartitionedEntries inflate src ([] :: parts) =
      fetchPartitionedEntries inflate src parts ∧
    ∀ part : List CentralDirectoryEntry, part ≠ [] →
      (requestChunkRange part).isSome := by
  refine ⟨by simp [partitionRequests], by simp [fetchPartitionedEntries], ?_⟩
  intro part h
  cases part with
  | nil => exact absurd rfl h
  | cons e es => simp [requestChunkRange]

/-- C8 witness at a concrete input. -/
theorem claim_c8_empty_partition_noop_witness :
    (requestChunkRange [sampleEntry]).isSome :=
  (claim_c8_empty_partition_noop (fun b => b) ⟨[]⟩ []).2.2 [sampleEntry]
    (by decide)

/-- C7: with the gate capacity fixed at 10 and any number `M > 10` of
pending partitions, every scheduler state reachable from the initial state
has at most 10 range requests outstanding: a slot is acquired before
`source.streamBytes` is called and released only afterward, so `active`
counts the outstanding requests and never exceeds the capacity. -/
theorem claim_c7_concurrency_bound (M : Nat) (s : FetchState)
    (_hM : 10 < M) (h : FetchReachable 10 ⟨M, 0, 0⟩ s) : s.active ≤ 10 := by
  induction h with
  | refl => simp
  | tail _ step ih =>
    cases step with
    | start p a c hlt =>
      show a + 1 ≤ 10
      omega
    | finish p a c => simp at ih ⊢; omega

/-- C7 witness: from 11 pending partitions, the state after one admitted
request is reachable and satisfies the bound. -/
theorem claim_c7_concurrency_bound_witness :
    (⟨10, 1, 0⟩ : FetchState).active ≤ 10 :=
  claim_c7_concurrency_bound 11 ⟨10, 1, 0⟩ (by decide)
    (Relation.ReflTransGen.single (FetchStep.start 10 0 0 (by decide)))


/-! ## EOCD locator lemmas -/

theorem byteAt_drop (l : List Nat) (n k : Nat) :
    byteAt (l.drop n) k = byteAt l (n + k) := by
  simp [byteAt, List.getD, List.getElem?_drop]

theorem readU32At_drop (l : List Nat) (n k : Nat) :
    readU32At (l.drop n) k = readU32At l (n + k) := by
  simp [readU32At, byteAt_drop, Nat.add_assoc]

theorem scanDown_none (view : List Nat) (s : Nat)
    (h : ∀ k, k ≤ s → readU32At view k ≠ SIGNATURE_CENTRAL_DIRECTORY_END) :
    scanDown view s = none := by
  induction s with
  | zero => simp [scanDown, h 0 le_rfl]
  | succ s ih =>
    simp only [scanDown, if_neg (h (s + 1) le_rfl)]
    exact ih (fun k hk => h k (by omega))

theorem scanDown_finds (view : List Nat) (j : Nat)
    (hm : readU32At view j = SIGNATURE_CENTRAL_DIRECTORY_END) :
    ∀ s, j ≤ s →
      (∀ k, j < k → k ≤ s →
        readU32At view k ≠ SIGNATURE_CENTRAL_DIRECTORY_END) →
      scanDown view s = some j := by
  intro s
  induction s with
  | zero =>
    intro hj _
    have hj0 : j = 0 := Nat.le_zero.mp hj
    subst hj0
    simp [scanDown, hm]
  | succ s ih =>
    intro hj hother
    by_cases he : j = s + 1
    · subst he
      simp [scanDown, hm]
    · have h1 : readU32At view (s + 1) ≠ SIGNATURE_CENTRAL_DIRECTORY_END :=
        hother (s + 1) (by omega) le_rfl
      simp only [scanDown, if_neg h1]
      exact ih (by omega) (fun k hk1 hk2 => hother k hk1 (by omega))

theorem scanForSignature_finds (view : List Nat) (j : Nat)
    (hlen : j + 4 ≤ view.length)
    (hm : readU32At view j = SIGNATURE_CENTRAL_DIRECTORY_END)
    (hother : ∀ k, j < k → k + 4 ≤ view.length →
      readU32At view k ≠ SIGNATURE_CENTRAL_DIRECTORY_END) :
    scanForSignature view = some j := by
  unfold scanForSignature
  rw [if_neg (by omega)]
  exact scanDown_finds view j hm (view.length - 4) (by omega)
    (fun k h1 h2 => hother k h1 (by omega))

theorem drop_take_drop (l : List Nat) (a b : Nat) (hab : a ≤ b) :
    (l.drop a).take (b - a) ++ l.drop b = l.drop a := by
  have h1 : l.drop b = (l.drop a).drop (b - a) := by
    rw [List.drop_drop]
    congr 1
    omega
  rw [h1, List.take_append_drop]

theorem streamCentralDirectoryScan_success (bytes : List Nat)
    (cs dirStart : Nat) (hcs : cs = bytes.length - 51200)
    (hL : 22 ≤ bytes.length)
    (hsig : readU32At bytes (bytes.length - 22) =
      SIGNATURE_CENTRAL_DIRECTORY_END)
    (huniq : ∀ i, i + 4 ≤ bytes.length →
      readU32At bytes i = SIGNATURE_CENTRAL_DIRECTORY_END →
      i = bytes.length - 22)
    (hdir : readU32At bytes (bytes.length - 6) = dirStart) :
    streamCentralDirectoryScan bytes cs [] =
      Sum.inr (Except.ok (bytes.drop dirStart)) := by
  have hC : CENTRAL_DIRECTORY_END_SCAN_CHUNK_SIZE = 51200 := by
    unfold CENTRAL_DIRECTORY_END_SCAN_CHUNK_SIZE
    norm_num
  have hmin : min (cs + CENTRAL_DIRECTORY_END_SCAN_CHUNK_SIZE - 1)
      (bytes.length - 1) = bytes.length - 1 := by omega
  have hchunk : sliceBytes bytes cs (bytes.length - 1) = bytes.drop cs := by
    unfold sliceBytes
    apply List.take_of_length_le
    rw [List.length_drop]
    omega
  have hscan : scanForSignature (bytes.drop cs) =
      some (bytes.length - 22 - cs) := by
    apply scanForSignature_finds
    · rw [List.length_drop]; omega
    · rw [readU32At_drop, show cs + (bytes.length - 22 - cs) =
        bytes.length - 22 from by omega]
      exact hsig
    · intro k hk1 hk2
      rw [readU32At_drop]
      intro hcon
      have hk3 := huniq (cs + k)
        (by rw [List.length_drop] at hk2; omega) hcon
      omega
  have hdirRead : readU32At (bytes.drop cs)
      (bytes.length - 22 - cs + 16) = dirStart := by
    rw [readU32At_drop, show cs + (bytes.length - 22 - cs + 16) =
      bytes.length - 6 from by omega]
    exact hdir
  have hc1 : ¬ ((bytes.length - cs) <
      bytes.length - 22 - cs + 16 + 4) := by omega
  have hc2 : ¬ ((bytes.length - cs) <
      bytes.length - 22 - cs + 20) := by omega
  simp only [streamCentralDirectoryScan, hmin, hchunk, hscan,
    List.append_nil, List.length_drop, hdirRead, hc1, hc2, if_false,
    ite_false]
  rcases Nat.lt_trichotomy dirStart cs with h | h | h
  · rw [if_pos h]
    have he : cs - 1 + 1 - dirStart = cs - dirStart := by omega
    unfold sliceBytes
    rw [he, drop_take_drop bytes dirStart cs (by omega)]
  · subst h
    rw [if_neg (by omega), if_neg (by omega)]
  · rw [if_neg (by omega), if_pos h, List.drop_drop,
      show cs + (dirStart - cs) = dirStart from by omega]

theorem streamCentralDirectoryGo_success (bytes : List Nat)
    (dirStart : Nat) (fuel : Nat) (hL : 22 ≤ bytes.length)
    (hsig : readU32At bytes (bytes.length - 22) =
      SIGNATURE_CENTRAL_DIRECTORY_END)
    (huniq : ∀ i, i + 4 ≤ bytes.length →
      readU32At bytes i = SIGNATURE_CENTRAL_DIRECTORY_END →
      i = bytes.length - 22)
    (hdir : readU32At bytes (bytes.length - 6) = dirStart) :
    streamCentralDirectoryGo bytes bytes.length [] (fuel + 1) =
      some (Except.ok (bytes.drop dirStart)) := by
  have hclamp : clampChunkStart bytes.length = bytes.length - 51200 := by
    unfold clampChunkStart CENTRAL_DIRECTORY_END_SCAN_CHUNK_SIZE
    norm_num
  rw [streamCentralDirectoryGo, hclamp,
    streamCentralDirectoryScan_success bytes (bytes.length - 51200)
      dirStart rfl hL hsig huniq hdir]
  rfl

/-- `streamCentralDirectory` succeeds on any byte source whose last 22
bytes are a comment-free EOCD record with a unique signature occurrence,
returning the bytes from the central directory offset to the end. -/
theorem streamCentralDirectory_success (src : BytesSource)
    (dirStart : Nat) (hL : 22 ≤ src.bytes.length)
    (hsig : readU32At src.bytes (src.bytes.length - 22) =
      SIGNATURE_CENTRAL_DIRECTORY_END)
    (huniq : ∀ i, i + 4 ≤ src.bytes.length →
      readU32At src.bytes i = SIGNATURE_CENTRAL_DIRECTORY_END →
      i = src.bytes.length - 22)
    (hdir : readU32At src.bytes (src.bytes.length - 6) = dirStart) :
    streamCentralDirectory src =
      some (Except.ok (src.bytes.drop dirStart)) := by
  unfold streamCentralDirectory
  exact streamCentralDirectoryGo_success src.bytes dirStart
    src.bytes.length hL hsig huniq hdir


/-- C3 (code bug): on a byte source containing no end-of-central-directory
signature the locator never terminates.  `chunkStart` is clamped at 0 by
`Math.max`, so the loop condition `chunkStart >= 0` is always true and the
post-loop `throw new Error('Central directory not found')` is dead code:
once `chunkStart` reaches 0 the loop re-fetches the first chunk forever.
Formally: for the 4-byte source `[0, 0, 0, 0]` (no signature anywhere), no
amount of fuel makes the loop return — in particular the modelled
`streamCentralDirectory` (given fuel `length + 1`) yields `none`, and it
yields `none` for every other fuel budget as well. -/
theorem claim_c3_locator_never_terminates :
    (∀ fuel acc,
      streamCentralDirectoryGo [0, 0, 0, 0] 0 acc fuel = none) ∧
    streamCentralDirectory ⟨[0, 0, 0, 0]⟩ = none := by
  have hscan0 : ∀ acc : List Nat,
      streamCentralDirectoryScan [0, 0, 0, 0] (clampChunkStart 0) acc =
        Sum.inl (0, [0, 0, 0, 0] ++ acc) := fun acc => by
    with_unfolding_all rfl
  have main : ∀ fuel acc,
      streamCentralDirectoryGo [0, 0, 0, 0] 0 acc fuel = none := by
    intro fuel
    induction fuel with
    | zero => intro acc; rfl
    | succ fuel ih =>
      intro acc
      rw [streamCentralDirectoryGo, hscan0 acc]
      exact ih ([0, 0, 0, 0] ++ acc)
  exact ⟨main, by with_unfolding_all rfl⟩


/-! ## Archive layout lemmas -/

theorem cdOffsetOf_cons (f : LocalFile) (fs : List LocalFile) :
    cdOffsetOf (f :: fs) = localLen f + cdOffsetOf fs := by
  simp [cdOffsetOf]

theorem cdSizeOf_cons (f : LocalFile) (fs : List LocalFile) :
    cdSizeOf (f :: fs) = centralLen f + cdSizeOf fs := by
  simp [cdSizeOf]

theorem localLen_ge (f : LocalFile) : 30 ≤ localLen f := by
  simp [localLen]
  omega

theorem centralLen_ge (f : LocalFile) : 46 ≤ centralLen f := by
  simp [centralLen]
  omega

theorem len_le_cdOffset (fs : List LocalFile) :
    fs.length ≤ cdOffsetOf fs := by
  induction fs with
  | nil => simp [cdOffsetOf]
  | cons f fs ih =>
    rw [cdOffsetOf_cons]
    have := localLen_ge f
    simp only [List.length_cons]
    omega

theorem len_le_cdSize (fs : List LocalFile) :
    fs.length ≤ cdSizeOf fs := by
  induction fs with
  | nil => simp [cdSizeOf]
  | cons f fs ih =>
    rw [cdSizeOf_cons]
    have := centralLen_ge f
    simp only [List.length_cons]
    omega

theorem encLocals_length (fs : List LocalFile) :
    (encLocals fs).length = cdOffsetOf fs := by
  induction fs with
  | nil => rfl
  | cons f fs ih =>
    simp [encLocals, cdOffsetOf_cons, encLocalFile_length, ih]

theorem encCentrals_length (fs : List LocalFile) :
    ∀ off, (encCentrals off fs).length = cdSizeOf fs := by
  induction fs with
  | nil => intro off; rfl
  | cons f fs ih =>
    intro off
    simp [encCentrals, cdSizeOf_cons, encCentralRecord_length, ih]

theorem encodeZip_length (fs : List LocalFile) :
    (encodeZip fs).length = cdOffsetOf fs + cdSizeOf fs + 22 := by
  simp [encodeZip, encLocals_length, encCentrals_length,
    encEOCDRecord_length]
  omega

theorem byteAt_append_right (a b : List Nat) (k : Nat) :
    byteAt (a ++ b) (a.length + k) = byteAt b k := by
  simp [byteAt, List.getD, List.getElem?_append_right]

theorem readU32At_append_right (a b : List Nat) (k : Nat) :
    readU32At (a ++ b) (a.length + k) = readU32At b k := by
  simp [readU32At, Nat.add_assoc, byteAt_append_right]

theorem readU32At_w32_prefix (x : Nat) (r : List Nat) :
    readU32At (w32 x ++ r) 0 = x % 4294967296 := by
  show x % 256 + 256 * (x / 256 % 256) + 65536 * (x / 65536 % 256) +
    16777216 * (x / 16777216 % 256) = x % 4294967296
  omega

theorem w32_sigFile_bytes : w32 SIGNATURE_FILE = [80, 75, 3, 4] := by
  decide

theorem w32_sigCentral_bytes :
    w32 SIGNATURE_CENTRAL_DIRECTORY_START = [80, 75, 1, 2] := by
  decide

theorem w32_sigEnd_bytes :
    w32 SIGNATURE_CENTRAL_DIRECTORY_END = [80, 75, 5, 6] := by
  decide

theorem encLocals_take2 (fs : List LocalFile) (t : List Nat)
    (h2 : t.take 2 = [80, 75]) :
    (encLocals fs ++ t).take 2 = [80, 75] := by
  cases fs with
  | nil => simpa [encLocals] using h2
  | cons f fs =>
    simp [encLocals, encLocalFile, w32_sigFile_bytes]

theorem cdRegion_take2 (fs : List LocalFile) (off c s o : Nat) :
    (encCentrals off fs ++ encEOCDRecord c s o).take 2 = [80, 75] := by
  cases fs with
  | nil => simp [encCentrals, encEOCDRecord, w32_sigEnd_bytes]
  | cons f fs =>
    simp [encCentrals, encCentralRecord, w32_sigCentral_bytes]

/-! ## Sequential pipeline on a canonical archive -/

theorem zipEntriesGo_nil (inflate : List Nat → List Nat) :
    ∀ fuel, zipEntriesGo inflate fuel [] = [] := by
  intro fuel
  cases fuel with
  | zero => rfl
  | succ fuel => simp [zipEntriesGo, readNextEntry_nil]

theorem zipGo_encLocals (inflate : List Nat → List Nat) :
    ∀ (fs : List LocalFile) (tail : List Nat) (fuel : Nat),
      fs.length ≤ fuel → (∀ f ∈ fs, wfLocalFile f) →
      zipEntriesGo inflate fuel (encLocals fs ++ tail) =
        fs.map (fun f => ZipEntry.file (fileEntryOf inflate f)) ++
          zipEntriesGo inflate (fuel - fs.length) tail := by
  intro fs
  induction fs with
  | nil => intro tail fuel _ _; simp [encLocals]
  | cons f fs ih =>
    intro tail fuel hfuel hwf
    cases fuel with
    | zero => exact absurd hfuel (by simp)
    | succ fuel =>
      have hassoc : encLocals (f :: fs) ++ tail =
          encLocalFile f ++ (encLocals fs ++ tail) := by
        simp [encLocals]
      have hstep : zipEntriesGo inflate (fuel + 1)
          (encLocalFile f ++ (encLocals fs ++ tail)) =
          ZipEntry.file (fileEntryOf inflate f) ::
            zipEntriesGo inflate fuel (encLocals fs ++ tail) := by
        rw [zipEntriesGo, readNextEntry_local inflate f _ (hwf f (by simp))]
      rw [hassoc, hstep, ih tail fuel (by simpa using hfuel)
        (fun g hg => hwf g (by simp [hg]))]
      simp [Nat.succ_sub_succ]

theorem zipGo_encCentrals (inflate : List Nat → List Nat) :
    ∀ (fs : List LocalFile) (off : Nat) (tail : List Nat) (fuel : Nat),
      fs.length ≤ fuel → (∀ f ∈ fs, wfLocalFile f) →
      off + cdOffsetOf fs < 4294967296 →
      zipEntriesGo inflate fuel (encCentrals off fs ++ tail) =
        (centralEntriesOf off fs).map ZipEntry.central ++
          zipEntriesGo inflate (fuel - fs.length) tail := by
  intro fs
  induction fs with
  | nil => intro off tail fuel _ _ _; simp [encCentrals, centralEntriesOf]
  | cons f fs ih =>
    intro off tail fuel hfuel hwf h32
    cases fuel with
    | zero => exact absurd hfuel (by simp)
    | succ fuel =>
      have hlen30 := localLen_ge f
      have hco := cdOffsetOf_cons f fs
      have hassoc : encCentrals off (f :: fs) ++ tail =
          encCentralRecord off f ++ (encCentrals (off + localLen f) fs ++
            tail) := by
        simp [encCentrals]
      have hstep : zipEntriesGo inflate (fuel + 1)
          (encCentralRecord off f ++ (encCentrals (off + localLen f) fs ++
            tail)) =
          ZipEntry.central (centralEntryOf off f) ::
            zipEntriesGo inflate fuel
              (encCentrals (off + localLen f) fs ++ tail) := by
        rw [zipEntriesGo,
          readNextEntry_central inflate off f _ (hwf f (by simp))
            (by omega)]
      rw [hassoc, hstep, ih (off + localLen f) tail fuel
        (by simpa using hfuel) (fun g hg => hwf g (by simp [hg]))
        (by omega)]
      simp [centralEntriesOf, Nat.succ_sub_succ]

theorem zipGo_eocd_nil (inflate : List Nat → List Nat)
    (c s o fuel : Nat) (hc : c < 65536) (hs : s < 4294967296)
    (ho : o < 4294967296) :
    zipEntriesGo inflate (fuel + 1) (encEOCDRecord c s o) =
      [ZipEntry.dirEnd ⟨0, 0, c, c, s, o, 0, []⟩] := by
  have h := readNextEntry_eocd inflate c s o [] hc hs ho
  rw [List.append_nil] at h
  rw [zipEntriesGo, h]
  simp [zipEntriesGo_nil]

theorem zipEntries_encodeZip (inflate : List Nat → List Nat)
    (fs : List LocalFile) (h : wfArchive fs) :
    zipEntries inflate (encodeZip fs) =
      fs.map (fun f => ZipEntry.file (fileEntryOf inflate f)) ++
      ((centralEntriesOf 0 fs).map ZipEntry.central ++
        [ZipEntry.dirEnd
          ⟨0, 0, fs.length, fs.length, cdSizeOf fs, cdOffsetOf fs, 0,
            []⟩]) := by
  obtain ⟨hwf, hcount, hoff32, hsize32, -⟩ := h
  have hlc := len_le_cdOffset fs
  have hls := len_le_cdSize fs
  have hlen := encodeZip_length fs
  rw [zipEntries]
  rw [show encodeZip fs = encLocals fs ++ (encCentrals 0 fs ++
    encEOCDRecord fs.length (cdSizeOf fs) (cdOffsetOf fs)) from rfl]
  have hlen2 : (encLocals fs ++ (encCentrals 0 fs ++
      encEOCDRecord fs.length (cdSizeOf fs) (cdOffsetOf fs))).length =
      cdOffsetOf fs + cdSizeOf fs + 22 := by
    simp [List.length_append, encLocals_length, encCentrals_length,
      encEOCDRecord_length]
    omega
  rw [zipGo_encLocals inflate fs _ _ (by omega) hwf]
  rw [zipGo_encCentrals inflate fs 0 _ _ (by omega)
    hwf (by omega)]
  obtain ⟨m, hm⟩ : ∃ m, (encLocals fs ++ (encCentrals 0 fs ++
      encEOCDRecord fs.length (cdSizeOf fs) (cdOffsetOf fs))).length + 1 -
      fs.length - fs.length = m + 1 :=
    ⟨(encLocals fs ++ (encCentrals 0 fs ++
      encEOCDRecord fs.length (cdSizeOf fs) (cdOffsetOf fs))).length + 1 -
      fs.length - fs.length - 1, by omega⟩
  rw [hm, zipGo_eocd_nil inflate fs.length (cdSizeOf fs) (cdOffsetOf fs)
    m hcount hsize32 hoff32]


theorem filterMap_file_of_map_file (g : LocalFile → FileEntry)
    (fs : List LocalFile) :
    (fs.map (fun f => ZipEntry.file (g f))).filterMap (fun e =>
      match e with
      | ZipEntry.file f => some f
      | _ => none) = fs.map g := by
  induction fs with
  | nil => rfl
  | cons f fs ih => simp [ih]

theorem filterMap_file_of_map_central (es : List CentralDirectoryEntry) :
    (es.map ZipEntry.central).filterMap (fun e =>
      match e with
      | ZipEntry.file f => some f
      | _ => none) = [] := by
  induction es with
  | nil => rfl
  | cons e es ih => simp [ih]

theorem readEntireZip_encodeZip (inflate : List Nat → List Nat)
    (p : Bool → Nat → Bool) (fs : List LocalFile) (h : wfArchive fs) :
    readEntireZip inflate p (encodeZip fs) =
      (fs.filter
        (fun f => p (endsWithSlash f.fileName) f.uncompressedSize)).map
        (fileEntryOf inflate) := by
  rw [readEntireZip, zipEntries_encodeZip inflate fs h]
  simp only [List.filterMap_append,
    filterMap_file_of_map_file (fileEntryOf inflate) fs,
    filterMap_file_of_map_central]
  simp only [List.filterMap_cons, List.filterMap_nil, List.filter_nil,
    List.filter_append, List.append_nil, List.filter_map]
  congr 1


/-! ## Selective pipeline on a canonical archive -/

theorem locate_encodeZip (fs : List LocalFile) (h : wfArchive fs) :
    streamCentralDirectory ⟨encodeZip fs⟩ =
      some (Except.ok (encCentrals 0 fs ++
        encEOCDRecord fs.length (cdSizeOf fs) (cdOffsetOf fs))) := by
  obtain ⟨hwf, hcount, hoff32, hsize32, huniq⟩ := h
  have hlen := encodeZip_length fs
  have hL : 22 ≤ (encodeZip fs).length := by omega
  have hpre : encodeZip fs = (encLocals fs ++ encCentrals 0 fs) ++
      encEOCDRecord fs.length (cdSizeOf fs) (cdOffsetOf fs) := by
    simp [encodeZip]
  have hprelen : (encLocals fs ++ encCentrals 0 fs).length =
      cdOffsetOf fs + cdSizeOf fs := by
    simp [encLocals_length, encCentrals_length]
  have hsig : readU32At (encodeZip fs) ((encodeZip fs).length - 22) =
      SIGNATURE_CENTRAL_DIRECTORY_END := by
    rw [show (encodeZip fs).length - 22 =
      (encLocals fs ++ encCentrals 0 fs).length + 0 from by omega, hpre,
      readU32At_append_right,
      show encEOCDRecord fs.length (cdSizeOf fs) (cdOffsetOf fs) =
        w32 SIGNATURE_CENTRAL_DIRECTORY_END ++
          encEOCDHeader fs.length (cdSizeOf fs) (cdOffsetOf fs) from rfl,
      readU32At_w32_prefix]
    decide
  have hdir : readU32At (encodeZip fs) ((encodeZip fs).length - 6) =
      cdOffsetOf fs := by
    rw [show (encodeZip fs).length - 6 =
      (encLocals fs ++ encCentrals 0 fs).length + 16 from by omega, hpre,
      readU32At_append_right,
      show encEOCDRecord fs.length (cdSizeOf fs) (cdOffsetOf fs) =
        w32 SIGNATURE_CENTRAL_DIRECTORY_END ++
          encEOCDHeader fs.length (cdSizeOf fs) (cdOffsetOf fs) from rfl,
      show (16 : Nat) =
        (w32 SIGNATURE_CENTRAL_DIRECTORY_END).length + 12 from rfl,
      readU32At_append_right, ehOffset _ _ _ hoff32]
  have huniq2 : ∀ i, i + 4 ≤ (encodeZip fs).length →
      readU32At (encodeZip fs) i = SIGNATURE_CENTRAL_DIRECTORY_END →
      i = (encodeZip fs).length - 22 :=
    fun i h1 h2 => huniq i (by omega) h2
  rw [streamCentralDirectory_success ⟨encodeZip fs⟩ (cdOffsetOf fs) hL
    hsig huniq2 hdir]
  rw [show encodeZip fs = encLocals fs ++ (encCentrals 0 fs ++
      encEOCDRecord fs.length (cdSizeOf fs) (cdOffsetOf fs)) from rfl,
    show cdOffsetOf fs = (encLocals fs).length from
      (encLocals_length fs).symm,
    drop_len_append]

theorem cdGo_enc :
    ∀ (fs : List LocalFile) (off fuel c s o : Nat), fs.length ≤ fuel →
      (∀ f ∈ fs, wfLocalFile f) → off + cdOffsetOf fs < 4294967296 →
      centralDirectoryEntriesGo fuel
        (encCentrals off fs ++ encEOCDRecord c s o) =
        centralEntriesOf off fs := by
  intro fs
  induction fs with
  | nil =>
    intro off fuel c s o _ _ _
    cases fuel with
    | zero => rfl
    | succ fuel =>
      have hnone : readCentralDirectory
          (encCentrals off [] ++ encEOCDRecord c s o) false = none := by
        rw [show encCentrals off [] ++ encEOCDRecord c s o =
          w32 SIGNATURE_CENTRAL_DIRECTORY_END ++
            encEOCDHeader c s o from by simp [encCentrals, encEOCDRecord]]
        exact readCentralDirectory_wrongSig _ _ (by decide)
      rw [centralDirectoryEntriesGo, hnone]
      rfl
  | cons f fs ih =>
    intro off fuel c s o hfuel hwf h32
    cases fuel with
    | zero => exact absurd hfuel (by simp)
    | succ fuel =>
      have hlen30 := localLen_ge f
      have hco := cdOffsetOf_cons f fs
      have hassoc : encCentrals off (f :: fs) ++ encEOCDRecord c s o =
          encCentralRecord off f ++ (encCentrals (off + localLen f) fs ++
            encEOCDRecord c s o) := by
        simp [encCentrals]
      have hstep : centralDirectoryEntriesGo (fuel + 1)
          (encCentralRecord off f ++ (encCentrals (off + localLen f) fs ++
            encEOCDRecord c s o)) =
          centralEntryOf off f :: centralDirectoryEntriesGo fuel
            (encCentrals (off + localLen f) fs ++
              encEOCDRecord c s o) := by
        rw [centralDirectoryEntriesGo,
          readCentralDirectory_enc off f _ (hwf f (by simp)) (by omega)]
      rw [hassoc, hstep,
        ih (off + localLen f) fuel c s o (by simpa using hfuel)
          (fun g hg => hwf g (by simp [hg])) (by omega)]
      rfl

theorem cdList_enc (fs : List LocalFile) (c s o : Nat)
    (hwf : ∀ f ∈ fs, wfLocalFile f) (h32 : cdOffsetOf fs < 4294967296) :
    centralDirectoryEntriesList
      (encCentrals 0 fs ++ encEOCDRecord c s o) =
      centralEntriesOf 0 fs := by
  rw [centralDirectoryEntriesList]
  apply cdGo_enc fs 0 _ c s o _ hwf (by omega)
  have h1 := len_le_cdSize fs
  have h2 : (encCentrals 0 fs).length = cdSizeOf fs :=
    encCentrals_length fs 0
  simp only [List.length_append]
  omega

theorem partitionGo_singles (g : Int) :
    ∀ (es : List CentralDirectoryEntry) (lastEnd : Int)
      (cur : List CentralDirectoryEntry),
      (∀ e, es.head? = some e → (e.firstByteAt : Int) > lastEnd + g) →
      es.Chain' (fun a b =>
        (b.firstByteAt : Int) > (a.lastByteAt : Int) + g) →
      partitionNearbyEntriesGo g lastEnd cur es =
        cur :: es.map (fun e => [e]) := by
  intro es
  induction es with
  | nil => intro lastEnd cur _ _; rfl
  | cons e es ih =>
    intro lastEnd cur hhead hchain
    rw [List.chain'_cons'] at hchain
    rw [partitionNearbyEntriesGo, if_pos (hhead e rfl)]
    rw [ih (e.lastByteAt : Int) [e]
      (fun e2 he2 => hchain.1 e2 he2) hchain.2]
    rfl

theorem centralEntryOf_lastByteAt (off : Nat) (f : LocalFile) :
    (centralEntryOf off f).lastByteAt = off + localLen f + 1 := by
  simp [centralEntryOf, FILE_HEADER_SIZE, localLen]
  omega

theorem pairwise_centralEntries :
    ∀ (fs : List LocalFile) (off : Nat),
      ((centralEntriesOf off fs).Pairwise (fun a b =>
        (b.firstByteAt : Int) > (a.lastByteAt : Int) + defaultMaxGap)) ∧
      (∀ e ∈ centralEntriesOf off fs, off ≤ e.firstByteAt) := by
  intro fs
  induction fs with
  | nil => intro off; simp [centralEntriesOf]
  | cons f fs ih =>
    intro off
    have hlen30 := localLen_ge f
    obtain ⟨ihp, ihm⟩ := ih (off + localLen f)
    constructor
    · rw [centralEntriesOf, List.pairwise_cons]
      refine ⟨?_, ihp⟩
      intro e2 he2
      have h2 := ihm e2 he2
      rw [centralEntryOf_lastByteAt]
      show ((e2.firstByteAt : Nat) : Int) > _
      simp only [defaultMaxGap]
      omega
    · intro e he
      rw [centralEntriesOf, List.mem_cons] at he
      rcases he with rfl | he
      · show off ≤ off
        exact le_rfl
      · have := ihm e he
        omega

theorem partition_selected (p : Bool → Nat → Bool) (fs : List LocalFile)
    (off0 : Nat) :
    partitionNearbyEntries ((centralEntriesOf off0 fs).filter
      (fun e => p e.isDirectory e.uncompressedSize)) =
      [] :: ((centralEntriesOf off0 fs).filter
        (fun e => p e.isDirectory e.uncompressedSize)).map
        (fun e => [e]) := by
  rw [partitionNearbyEntries, partitionNearbyEntriesWith]
  apply partitionGo_singles
  · intro e _
    simp only [defaultMaxGap]
    omega
  · exact (List.Pairwise.filter _
      (pairwise_centralEntries fs off0).1).chain'


theorem readFileEntriesGo_single (inflate : List Nat → List Nat)
    (f : LocalFile) (hf : wfLocalFile f) (fuel : Nat) :
    readFileEntriesGo inflate (fuel + 2) (encLocalFile f ++ [80, 75]) =
      [fileEntryOf inflate f] := by
  have hstep : readFileEntriesGo inflate (fuel + 1 + 1)
      (encLocalFile f ++ [80, 75]) =
      fileEntryOf inflate f ::
        readFileEntriesGo inflate (fuel + 1) [80, 75] := by
    rw [readFileEntriesGo, readFileEntry_enc inflate f _ hf]
  have hstop : readFileEntriesGo inflate (fuel + 1) [80, 75] = [] := by
    rw [readFileEntriesGo, readFileEntry_trailing]
  rw [show fuel + 2 = fuel + 1 + 1 from rfl, hstep, hstop]

theorem extract_single (inflate : List Nat → List Nat) (off : Nat)
    (f : LocalFile) (hf : wfLocalFile f) :
    extractRequestedFiles inflate (encLocalFile f ++ [80, 75])
      [centralEntryOf off f] = [fileEntryOf inflate f] := by
  rw [extractRequestedFiles]
  have hlen : (encLocalFile f ++ [80, 75]).length + 1 =
      (localLen f + 1) + 2 := by
    simp [encLocalFile_length]
  rw [hlen, readFileEntriesGo_single inflate f hf (localLen f + 1)]
  simp [fileEntryOf, centralEntryOf]

theorem slice_single (B : List Nat) (off : Nat) (f : LocalFile)
    (t : List Nat) (hdec : B.drop off = encLocalFile f ++ t)
    (ht : t.take 2 = [80, 75]) :
    sliceBytes B off ((centralEntryOf off f).lastByteAt) =
      encLocalFile f ++ [80, 75] := by
  unfold sliceBytes
  rw [hdec, centralEntryOf_lastByteAt]
  rw [show off + localLen f + 1 + 1 - off =
    (encLocalFile f).length + 2 from by rw [encLocalFile_length]; omega]
  rw [List.take_append, ht]

theorem fetch_cons_single (inflate : List Nat → List Nat) (B : List Nat)
    (ce : CentralDirectoryEntry)
    (rest : List (List CentralDirectoryEntry)) :
    fetchPartitionedEntries inflate ⟨B⟩ ([ce] :: rest) =
      extractRequestedFiles inflate
        (sliceBytes B ce.firstByteAt ce.lastByteAt) [ce] ++
        fetchPartitionedEntries inflate ⟨B⟩ rest := by
  simp [fetchPartitionedEntries, requestChunkRange, BytesSource.streamBytes,
    List.getLastD]

theorem fetchSingles (inflate : List Nat → List Nat)
    (p : Bool → Nat → Bool) (B : List Nat) :
    ∀ (fs : List LocalFile) (off0 : Nat) (t : List Nat),
      (∀ f ∈ fs, wfLocalFile f) →
      B.drop off0 = encLocals fs ++ t → t.take 2 = [80, 75] →
      fetchPartitionedEntries inflate ⟨B⟩
        (((centralEntriesOf off0 fs).filter
          (fun e => p e.isDirectory e.uncompressedSize)).map
          (fun e => [e])) =
      (fs.filter (fun f =>
        p (endsWithSlash f.fileName) f.uncompressedSize)).map
        (fileEntryOf inflate) := by
  intro fs
  induction fs with
  | nil => intro off0 t _ _ _; rfl
  | cons f fs ih =>
    intro off0 t hwf hdec ht
    have hwff := hwf f (by simp)
    have hdec2 : B.drop (off0 + localLen f) = encLocals fs ++ t := by
      rw [← List.drop_drop, hdec,
        show localLen f = (encLocalFile f).length from
          (encLocalFile_length f).symm,
        show encLocals (f :: fs) ++ t =
          encLocalFile f ++ (encLocals fs ++ t) from by simp [encLocals],
        drop_len_append]
    have ht2 : (encLocals fs ++ t).take 2 = [80, 75] :=
      encLocals_take2 fs t ht
    have hdecf : B.drop off0 = encLocalFile f ++ (encLocals fs ++ t) := by
      rw [hdec]
      simp [encLocals]
    have hpd : (centralEntryOf off0 f).isDirectory =
      endsWithSlash f.fileName := rfl
    have hpu : (centralEntryOf off0 f).uncompressedSize =
      f.uncompressedSize := rfl
    simp only [centralEntriesOf, List.filter_cons, hpd, hpu]
    by_cases hp : p (endsWithSlash f.fileName) f.uncompressedSize = true
    · rw [if_pos hp, List.map_cons, fetch_cons_single,
        show (centralEntryOf off0 f).firstByteAt = off0 from rfl,
        slice_single B off0 f (encLocals fs ++ t) hdecf ht2,
        extract_single inflate off0 f hwff,
        ih (off0 + localLen f) t (fun g hg => hwf g (by simp [hg]))
          hdec2 ht]
      simp [hp]
    · rw [if_neg hp,
        ih (off0 + localLen f) t (fun g hg => hwf g (by simp [hg]))
          hdec2 ht]
      simp [hp]


theorem fetch_nil_cons (inflate : List Nat → List Nat)
    (src : BytesSource) (parts : List (List CentralDirectoryEntry)) :
    fetchPartitionedEntries inflate src ([] :: parts) =
      fetchPartitionedEntries inflate src parts := by
  simp [fetchPartitionedEntries]

/-- C1: for every well-formed canonical archive and every selection
predicate (over the `isDirectory` / `uncompressedSize` fields the default
predicate reads), central-directory-driven selective decoding
(`iterateZipFiles2` over a `BytesSource`) succeeds and produces exactly
the same `FileEntry` list as whole-archive sequential decoding
(`readEntireZip` over the forward stream) restricted by the same
predicate: the same file names in the same order, and byte-for-byte the
same content (`body`) for every extracted file, for an arbitrary shared
inflater.  Equality of the full entry lists subsumes the claimed name-set
equality and per-file byte equality; the fetcher's completion-order
nondeterminism cannot affect either set, since every partition is fetched
and drained exactly once. -/
theorem claim_c1_selective_equals_sequential
    (inflate : List Nat → List Nat) (p : Bool → Nat → Bool)
    (fs : List LocalFile) (h : wfArchive fs) :
    iterateZipFiles2 inflate p ⟨encodeZip fs⟩ =
      some (readEntireZip inflate p (encodeZip fs)) := by
  rw [iterateZipFiles2, locate_encodeZip fs h]
  show some _ = _
  rw [cdList_enc fs fs.length (cdSizeOf fs) (cdOffsetOf fs) h.1 h.2.2.1,
    partition_selected p fs 0, fetch_nil_cons,
    fetchSingles inflate p (encodeZip fs) fs 0
      (encCentrals 0 fs ++
        encEOCDRecord fs.length (cdSizeOf fs) (cdOffsetOf fs)) h.1
      (by simp [encodeZip]) (cdRegion_take2 fs 0 fs.length (cdSizeOf fs)
        (cdOffsetOf fs)),
    readEntireZip_encodeZip inflate p fs h]


set_option maxRecDepth 100000 in
/-- C1 witness: on the sample archive (with the default predicate's test
and identity inflation) the archive is well-formed and the theorem
applies. -/
theorem claim_c1_selective_equals_sequential_witness :
    wfArchive zipExampleFiles ∧
    iterateZipFiles2 (fun b => b)
      (fun isDir usize => !isDir || usize != 0) ⟨encodeZip zipExampleFiles⟩ =
      some (readEntireZip (fun b => b)
        (fun isDir usize => !isDir || usize != 0)
        (encodeZip zipExampleFiles)) :=
  ⟨by decide,
   claim_c1_selective_equals_sequential (fun b => b)
     (fun isDir usize => !isDir || usize != 0) zipExampleFiles (by decide)⟩

end ZipStream
